import Mathlib

/-!
Shallow embedding of the craftr build-tool core, developed from the
repository sources:

* `src/lib/graph.py` — the generic directed graph (`Node`, `Graph`,
  `connect`, `disconnect_all`, `remove`, `topo_sort` / Kahn's algorithm);
* `src/core/buildgraph.py` — `Action.get_hash_components`,
  `Action.compute_hash_key`, `Action.skippable`;
* `src/backends/build/python.py` — the `PythonBackend.build` scheduling
  loop, `_action_completed` and the failure/cancellation handler;
* `src/craftr/actions/commands.py` — `Commands.execute`;
* `src/craftr/core/target.py` — `Target.translate`.

Python sets are modelled as duplicate-free lists (iteration order is a
refinement of the unspecified set order), dicts as association lists or
functions, byte strings as `List Nat`, and the incremental SHA-1 digest
as the concatenated update stream (the digest is a function of exactly
that stream).
-/

namespace Craftr

/-- A vertex of the directed graph of `src/lib/graph.py`: a unique key,
an owned value, and the adjacency sets `inputs` / `outputs`, each
modelled as a duplicate-free list of neighbour keys. -/
structure Node (K : Type) (V : Type) where
  key : K
  value : V
  inputs : List K
  outputs : List K
deriving DecidableEq

/-- The directed graph of `src/lib/graph.py`: a keyed node container,
the dict `__nodes` modelled as the list of nodes in insertion order
(keys are unique for well-formed graphs). -/
structure Graph (K : Type) (V : Type) where
  nodes : List (Node K V)
deriving DecidableEq

/-- Python `set.add`: insert an element if it is not already present. -/
def insertOnce {α : Type} [DecidableEq α] (x : α) (l : List α) : List α :=
  if x ∈ l then l else l ++ [x]

variable {K V : Type} [DecidableEq K]

/-- Key lookup, `Graph.__getitem__` / `Graph.node`. -/
def Graph.node? (g : Graph K V) (k : K) : Option (Node K V) :=
  g.nodes.find? (fun n => decide (n.key = k))

/-- The keys of the graph, i.e. the keys of the `__nodes` dict. -/
def Graph.keys (g : Graph K V) : List K :=
  g.nodes.map Node.key

/-- The `inputs` adjacency set of the node stored under `k` (empty if the
key is absent). -/
def inputsOf (g : Graph K V) (k : K) : List K :=
  match g.node? k with
  | some n => n.inputs
  | none => []

/-- The `outputs` adjacency set of the node stored under `k` (empty if
the key is absent). -/
def outputsOf (g : Graph K V) (k : K) : List K :=
  match g.node? k with
  | some n => n.outputs
  | none => []

/-- The per-node effect of `Node.connect(dest)` on the node stored under
one key: the node under `a` gains `b` in its `outputs`, the node under
`b` gains `a` in its `inputs` (both, when `a = b`). -/
def connectNode (a b : K) (n : Node K V) : Node K V :=
  { n with
    outputs := if n.key = a then insertOnce b n.outputs else n.outputs,
    inputs := if n.key = b then insertOnce a n.inputs else n.inputs }

/-- `Node.connect(dest)`: record the edge in both directions — `dest` is
added to the source's `outputs` and the source to `dest`'s `inputs`.
The Python asserts that both nodes belong to the graph; theorems about
`connect` carry that hypothesis. -/
def Graph.connect (g : Graph K V) (a b : K) : Graph K V :=
  ⟨g.nodes.map (connectNode a b)⟩

/-- The per-node effect of `Node.disconnect_all()` on the node stored
under one key, given the disconnected node's adjacency sets `ins` and
`outs`: the disconnected node's own sets are cleared; every source in
`ins` loses it from `outputs`; every destination in `outs` loses it from
`inputs`. -/
def disconnectNode (k : K) (ins outs : List K) (n : Node K V) : Node K V :=
  if n.key = k then { n with inputs := [], outputs := [] }
  else
    { n with
      outputs := if n.key ∈ ins then n.outputs.erase k else n.outputs,
      inputs := if n.key ∈ outs then n.inputs.erase k else n.inputs }

/-- `Node.disconnect_all()`: remove the node from every input source's
`outputs` and every output destination's `inputs`, then clear both of
its own adjacency sets. -/
def Graph.disconnectAll (g : Graph K V) (k : K) : Graph K V :=
  ⟨g.nodes.map (disconnectNode k (inputsOf g k) (outputsOf g k))⟩

/-- `Graph.remove(node)`: pop the node from the key map and run
`disconnect_all` (the Python pops first and then disconnects; both
effects are combined here, which yields the same final graph). -/
def Graph.removeNode (g : Graph K V) (k : K) : Graph K V :=
  let g1 := g.disconnectAll k
  ⟨g1.nodes.filter (fun n => decide (¬ n.key = k))⟩

/-- `Graph.add(node)`: error (`none`) if a different node already
occupies the key; re-adding the identical node is accepted. -/
def Graph.addNode [DecidableEq V] (g : Graph K V) (n : Node K V) :
    Option (Graph K V) :=
  match g.node? n.key with
  | some m => if m = n then some g else none
  | none => some ⟨g.nodes ++ [n]⟩

/-- One pass of the inner `for output_node in node.outputs` loop of
`Graph.topo_sort`: for each output of the just-dequeued `src`, decrement
the remaining-input counter unless the edge is already marked, mark the
edge, and enqueue the output once its counter reaches zero. -/
def kahnPush (src : K) (outs : List K) (counts : K → Nat)
    (marked : K → K → Bool) (queue : List K) :
    (K → Nat) × (K → K → Bool) × List K :=
  match outs with
  | [] => (counts, marked, queue)
  | o :: rest =>
    let n0 := counts o
    let b := marked src o
    let n1 := if b then n0 else n0 - 1
    let counts1 := fun x => if x = o then n1 else counts x
    let marked1 :=
      if b then marked
      else fun x y => (decide (x = src) && decide (y = o)) || marked x y
    let queue1 := if n1 = 0 then queue ++ [o] else queue
    kahnPush src rest counts1 marked1 queue1

/-- The `while roots:` loop of `Graph.topo_sort`: dequeue a node, yield
it (append to `acc`), process its outputs. The fuel argument only bounds
the iteration count; `topoSort` supplies enough fuel for every run that
Python's loop performs on a well-formed graph. -/
def kahnLoop (g : Graph K V) :
    Nat → List K → (K → Nat) → (K → K → Bool) → List K →
    List K × (K → Nat)
  | _, [], counts, _, acc => (acc, counts)
  | 0, _ :: _, counts, _, acc => (acc, counts)
  | fuel + 1, k :: rest, counts, marked, acc =>
    let res := kahnPush k (outputsOf g k) counts marked rest
    kahnLoop g fuel res.2.2 res.1 res.2.1 (acc ++ [k])

/-- The seed queue of `Graph.topo_sort`: `Graph.roots()`, the keys of
all nodes with no inputs, in node order. -/
def rootsQueue (g : Graph K V) : List K :=
  (g.nodes.filter (fun n => n.inputs.isEmpty)).map Node.key

/-- The seed counters of `Graph.topo_sort`: `input_counts`, each node's
number of inputs. -/
def initCounts (g : Graph K V) : K → Nat :=
  fun k => (inputsOf g k).length

/-- The full run of the `while roots:` loop of `Graph.topo_sort`. -/
def kahnRun (g : Graph K V) : List K × (K → Nat) :=
  kahnLoop g g.nodes.length (rootsQueue g) (initCounts g) (fun _ _ => false) []

/-- `Graph.topo_sort()`: Kahn's algorithm. The generator yields the
first component one node at a time and afterwards raises `RuntimeError`
iff the second component is `true` (some remaining-input counter is
still positive, i.e. the graph has a cycle). -/
def Graph.topoSort (g : Graph K V) : List K × Bool :=
  ((kahnRun g).1, g.nodes.any (fun n => decide (0 < (kahnRun g).2 n.key)))

/-- Well-formedness of a graph as maintained by the `Graph` API: unique
keys, duplicate-free adjacency sets, edges only between present nodes,
and the symmetric-edge invariant `b ∈ a.outputs ↔ a ∈ b.inputs`. -/
def WF (g : Graph K V) : Prop :=
  g.keys.Nodup ∧
  (∀ n ∈ g.nodes, n.inputs.Nodup ∧ n.outputs.Nodup) ∧
  (∀ n ∈ g.nodes, (∀ k ∈ n.inputs, k ∈ g.keys) ∧ (∀ k ∈ n.outputs, k ∈ g.keys)) ∧
  (∀ na ∈ g.nodes, ∀ nb ∈ g.nodes, (nb.key ∈ na.outputs ↔ na.key ∈ nb.inputs))

/-- The symmetric-edge invariant alone: for any two nodes present in the
graph, `b ∈ a.outputs ↔ a ∈ b.inputs`. -/
def SymEdges (g : Graph K V) : Prop :=
  ∀ na ∈ g.nodes, ∀ nb ∈ g.nodes, (nb.key ∈ na.outputs ↔ na.key ∈ nb.inputs)

/-- The edge relation of the graph: `b` is among the outputs of `a`. -/
def Edge (g : Graph K V) (a b : K) : Prop :=
  b ∈ outputsOf g a

/-- A graph contains no cycle: no node reaches itself through a nonempty
chain of edges. -/
def Acyclic (g : Graph K V) : Prop :=
  ∀ a, ¬ Relation.TransGen (Edge g) a a

instance (g : Graph K V) : Decidable (WF g) := by
  unfold WF; infer_instance

instance (g : Graph K V) : Decidable (SymEdges g) := by
  unfold SymEdges; infer_instance

instance (g : Graph K V) (a b : K) : Decidable (Edge g a b) := by
  unfold Edge; infer_instance

/-! ### Basic lookup lemmas -/

lemma node?_mem {g : Graph K V} {k : K} {n : Node K V}
    (h : g.node? k = some n) : n ∈ g.nodes :=
  List.mem_of_find?_eq_some h

lemma node?_key {g : Graph K V} {k : K} {n : Node K V}
    (h : g.node? k = some n) : n.key = k := by
  have := List.find?_some h
  simpa using this

lemma node?_isSome_of_mem_keys {g : Graph K V} {k : K} (h : k ∈ g.keys) :
    ∃ n, g.node? k = some n := by
  simp only [Graph.keys, List.mem_map] at h
  obtain ⟨n, hn, hk⟩ := h
  have : (g.node? k).isSome := by
    apply List.find?_isSome.mpr
    exact ⟨n, hn, by simp [hk]⟩
  exact Option.isSome_iff_exists.mp this

lemma mem_keys_of_node? {g : Graph K V} {k : K} {n : Node K V}
    (h : g.node? k = some n) : k ∈ g.keys := by
  have h1 := node?_mem h
  have h2 := node?_key h
  simp only [Graph.keys, List.mem_map]
  exact ⟨n, h1, h2⟩

lemma find?_key_of_mem {l : List (Node K V)} (hnd : (l.map Node.key).Nodup)
    {n : Node K V} (hn : n ∈ l) :
    l.find? (fun m => decide (m.key = n.key)) = some n := by
  induction l with
  | nil => cases hn
  | cons m rest ih =>
    simp only [List.map_cons, List.nodup_cons] at hnd
    rcases List.mem_cons.mp hn with h | h
    · subst h
      rw [List.find?_cons]
      simp
    · have hne : ¬ m.key = n.key := by
        intro he
        exact hnd.1 (he ▸ List.mem_map_of_mem Node.key h)
      rw [List.find?_cons]
      have hd : decide (m.key = n.key) = false := by simp [hne]
      simp [hd, ih hnd.2 h]

/-- With duplicate-free keys, looking up a stored node's key returns the
node itself. -/
lemma node?_of_mem {g : Graph K V} (hnd : g.keys.Nodup) {n : Node K V}
    (hn : n ∈ g.nodes) : g.node? n.key = some n :=
  find?_key_of_mem hnd hn

lemma inputsOf_eq {g : Graph K V} (hnd : g.keys.Nodup) {n : Node K V}
    (hn : n ∈ g.nodes) : inputsOf g n.key = n.inputs := by
  unfold inputsOf
  rw [node?_of_mem hnd hn]

lemma outputsOf_eq {g : Graph K V} (hnd : g.keys.Nodup) {n : Node K V}
    (hn : n ∈ g.nodes) : outputsOf g n.key = n.outputs := by
  unfold outputsOf
  rw [node?_of_mem hnd hn]

lemma mem_insertOnce {α : Type} [DecidableEq α] {x y : α} {l : List α} :
    x ∈ insertOnce y l ↔ x ∈ l ∨ x = y := by
  unfold insertOnce
  split
  · rename_i h
    constructor
    · exact Or.inl
    · rintro (hx | rfl)
      · exact hx
      · exact h
  · simp

/-! ### The symmetric-edge invariant under the graph operations (C8) -/

lemma connectNode_key {a b : K} {n : Node K V} :
    (connectNode a b n).key = n.key := rfl

lemma connectNode_outputs {a b : K} {n : Node K V} :
    (connectNode a b n).outputs =
      if n.key = a then insertOnce b n.outputs else n.outputs := rfl

lemma connectNode_inputs {a b : K} {n : Node K V} :
    (connectNode a b n).inputs =
      if n.key = b then insertOnce a n.inputs else n.inputs := rfl

lemma disconnectNode_key {k : K} {ins outs : List K} {n : Node K V} :
    (disconnectNode k ins outs n).key = n.key := by
  unfold disconnectNode
  split <;> rfl

lemma disconnectNode_outputs {k : K} {ins outs : List K} {n : Node K V}
    (h : ¬ n.key = k) :
    (disconnectNode k ins outs n).outputs =
      if n.key ∈ ins then n.outputs.erase k else n.outputs := by
  unfold disconnectNode
  rw [if_neg h]

lemma disconnectNode_inputs {k : K} {ins outs : List K} {n : Node K V}
    (h : ¬ n.key = k) :
    (disconnectNode k ins outs n).inputs =
      if n.key ∈ outs then n.inputs.erase k else n.inputs := by
  unfold disconnectNode
  rw [if_neg h]

lemma symEdges_connect {g : Graph K V} (hsym : SymEdges g) (a b : K) :
    SymEdges (g.connect a b) := by
  intro na' hna' nb' hnb'
  simp only [Graph.connect, List.mem_map] at hna' hnb'
  obtain ⟨na, hna, rfl⟩ := hna'
  obtain ⟨nb, hnb, rfl⟩ := hnb'
  rw [connectNode_key, connectNode_key, connectNode_outputs, connectNode_inputs]
  have hs := hsym na hna nb hnb
  by_cases h1 : na.key = a <;> by_cases h2 : nb.key = b
  · rw [if_pos h1, if_pos h2]
    simp [mem_insertOnce, h1, h2]
  · rw [if_pos h1, if_neg h2]
    rw [mem_insertOnce]
    simp [h2, hs]
  · rw [if_neg h1, if_pos h2]
    rw [mem_insertOnce]
    simp [h1, hs]
  · rw [if_neg h1, if_neg h2]
    exact hs

lemma symEdges_remove {g : Graph K V} (hsym : SymEdges g) (k : K) :
    SymEdges (g.removeNode k) := by
  intro na' hna' nb' hnb'
  simp only [Graph.removeNode, Graph.disconnectAll, List.mem_filter,
    List.mem_map, decide_eq_true_eq] at hna' hnb'
  obtain ⟨⟨na, hna, rfl⟩, hka⟩ := hna'
  obtain ⟨⟨nb, hnb, rfl⟩, hkb⟩ := hnb'
  rw [disconnectNode_key] at hka hkb
  have hs := hsym na hna nb hnb
  rw [disconnectNode_key, disconnectNode_key,
    disconnectNode_outputs hka, disconnectNode_inputs hkb]
  have l1 : (nb.key ∈ if na.key ∈ inputsOf g k then na.outputs.erase k
      else na.outputs) ↔ nb.key ∈ na.outputs := by
    split
    · exact List.mem_erase_of_ne hkb
    · exact Iff.rfl
  have l2 : (na.key ∈ if nb.key ∈ outputsOf g k then nb.inputs.erase k
      else nb.inputs) ↔ na.key ∈ nb.inputs := by
    split
    · exact List.mem_erase_of_ne hka
    · exact Iff.rfl
  rw [l1, l2]
  exact hs

lemma find?_eq_none_key {g : Graph K V} {k : K}
    (h : g.node? k = none) : k ∉ g.keys := by
  intro hk
  obtain ⟨n, hn⟩ := node?_isSome_of_mem_keys hk
  rw [h] at hn
  cases hn

lemma symEdges_add [DecidableEq V] {g : Graph K V} (hwf : WF g)
    {n : Node K V} (hni : n.inputs = []) (hno : n.outputs = [])
    {g' : Graph K V} (hadd : g.addNode n = some g') : SymEdges g' := by
  obtain ⟨hnd, hadj, hclosed, hsym⟩ := hwf
  unfold Graph.addNode at hadd
  split at hadd
  · rename_i m hfind
    split at hadd
    · cases hadd
      exact hsym
    · cases hadd
  · rename_i hfind
    cases hadd
    have hfresh : n.key ∉ g.keys := find?_eq_none_key hfind
    intro na hna nb hnb
    simp only [List.mem_append, List.mem_singleton] at hna hnb
    rcases hna with hna | rfl <;> rcases hnb with hnb | rfl
    · exact hsym na hna nb hnb
    · rw [hni]
      constructor
      · intro hmem
        exact absurd ((hclosed na hna).2 _ hmem) hfresh
      · intro hmem
        cases hmem
    · rw [hno]
      constructor
      · intro hmem
        cases hmem
      · intro hmem
        exact absurd ((hclosed nb hnb).1 _ hmem) hfresh
    · rw [hni, hno]

lemma connect_node? {g : Graph K V} (a b k : K) :
    (g.connect a b).node? k = (g.node? k).map (connectNode a b) := by
  show (g.nodes.map (connectNode a b)).find? (fun m => decide (m.key = k))
      = (g.nodes.find? (fun m => decide (m.key = k))).map (connectNode a b)
  rw [List.find?_map]
  have hpred : ((fun m => decide (m.key = k)) ∘ connectNode a b
      : Node K V → Bool) = (fun m => decide (m.key = k)) := by
    funext m
    simp [Function.comp, connectNode_key]
  rw [hpred]

/-! ### Kahn's algorithm: the loop invariant (C1 and C2) -/

/-- Removing one element in good standing from a filtered list shortens
the filter by exactly one. -/
lemma length_filter_erase_one {l : List K} (hnd : l.Nodup) {a : K}
    (ha : a ∈ l) (p : K → Bool) (hpa : p a = true) :
    (l.filter (fun x => p x && ! decide (x = a))).length
      = (l.filter p).length - 1 := by
  induction l with
  | nil => cases ha
  | cons x xs ih =>
    rw [List.nodup_cons] at hnd
    rcases List.mem_cons.mp ha with rfl | hmem
    · rw [List.filter_cons, List.filter_cons]
      simp only [decide_True, Bool.not_true, Bool.and_false,
        Bool.false_eq_true, if_false, hpa, if_true]
      have hrest : xs.filter (fun y => p y && ! decide (y = a)) = xs.filter p := by
        apply List.filter_congr
        intro y hy
        have hne : ¬ y = a := fun h => hnd.1 (h ▸ hy)
        simp [hne]
      rw [hrest]
      simp
    · rw [List.filter_cons, List.filter_cons]
      have hxne : ¬ x = a := fun h => hnd.1 (h ▸ hmem)
      by_cases hp : p x = true
      · simp only [hp, Bool.true_and, hxne, decide_eq_true_eq, not_false_iff,
          decide_False, Bool.not_false, if_true]
        have hge : 1 ≤ (xs.filter p).length := by
          have hm : a ∈ xs.filter p := List.mem_filter.mpr ⟨hmem, hpa⟩
          exact List.length_pos_of_mem hm
        have hd : (decide (x = a)) = false := by simp [hxne]
        simp only [hd, Bool.not_false, Bool.and_true, hp, if_true,
          List.length_cons]
        rw [ih hnd.2 hmem]
        omega
      · have hp' : p x = false := by
          cases hpx : p x
          · rfl
          · exact absurd hpx hp
        simp only [hp', Bool.false_and, Bool.false_eq_true, if_false]
        exact ih hnd.2 hmem

/-- A duplicate-free list of elements of `l2` is no longer than `l2`. -/
lemma nodup_subset_length_le {l1 l2 : List K} (hnd : l1.Nodup)
    (hsub : ∀ x ∈ l1, x ∈ l2) : l1.length ≤ l2.length := by
  calc l1.length = l1.toFinset.card := (List.toFinset_card_of_nodup hnd).symm
    _ ≤ l2.toFinset.card := by
        apply Finset.card_le_card
        intro x hx
        rw [List.mem_toFinset] at hx ⊢
        exact hsub x hx
    _ ≤ l2.length := l2.toFinset_card_le

/-- The invariant of the `while roots:` loop of `Graph.topo_sort`,
holding at the top of every iteration: `acc` is the list of yielded
nodes, `queue` the pending roots, `counts` the remaining-input counters
and `marked` the consumed edges. -/
structure KInv (g : Graph K V) (queue : List K) (counts : K → Nat)
    (marked : K → K → Bool) (acc : List K) : Prop where
  nodupSeen : (acc ++ queue).Nodup
  seenKeys : ∀ x ∈ acc ++ queue, x ∈ g.keys
  mSub : ∀ a b, marked a b = true → a ∈ acc ∧ b ∈ outputsOf g a
  mFull : ∀ a ∈ acc, ∀ b ∈ outputsOf g a, marked a b = true
  cEq : ∀ x ∈ g.keys,
    counts x = ((inputsOf g x).filter (fun i => ! marked i x)).length
  sIff : ∀ x ∈ g.keys, (x ∈ acc ++ queue ↔ counts x = 0)
  ordOk : ∀ x ∈ acc, ∀ i ∈ inputsOf g x,
    i ∈ acc ∧ acc.indexOf i < acc.indexOf x

lemma mem_keys_outputsOf {g : Graph K V} (hwf : WF g) {a b : K}
    (h : b ∈ outputsOf g a) : a ∈ g.keys ∧ b ∈ g.keys := by
  unfold outputsOf at h
  cases hfind : g.node? a with
  | none => rw [hfind] at h; cases h
  | some n =>
    rw [hfind] at h
    refine ⟨mem_keys_of_node? hfind, ?_⟩
    exact (hwf.2.2.1 n (node?_mem hfind)).2 b h

/-- Symmetry transfer: an edge recorded in the source's `outputs` is
recorded in the destination's `inputs`. -/
lemma mem_inputsOf_of_outputsOf {g : Graph K V} (hwf : WF g) {a b : K}
    (h : b ∈ outputsOf g a) : a ∈ inputsOf g b := by
  obtain ⟨ha, hb⟩ := mem_keys_outputsOf hwf h
  obtain ⟨na, hna⟩ := node?_isSome_of_mem_keys ha
  obtain ⟨nb, hnb⟩ := node?_isSome_of_mem_keys hb
  have hsym := hwf.2.2.2 na (node?_mem hna) nb (node?_mem hnb)
  rw [node?_key hna, node?_key hnb] at hsym
  unfold outputsOf at h
  rw [hna] at h
  unfold inputsOf
  rw [hnb]
  exact hsym.mp h

/-- Symmetry transfer, the other direction. -/
lemma mem_outputsOf_of_inputsOf {g : Graph K V} (hwf : WF g) {a b : K}
    (hb : b ∈ g.keys) (h : a ∈ inputsOf g b) : b ∈ outputsOf g a := by
  obtain ⟨nb, hnb⟩ := node?_isSome_of_mem_keys hb
  unfold inputsOf at h
  rw [hnb] at h
  have ha : a ∈ g.keys := (hwf.2.2.1 nb (node?_mem hnb)).1 a h
  obtain ⟨na, hna⟩ := node?_isSome_of_mem_keys ha
  have hsym := hwf.2.2.2 na (node?_mem hna) nb (node?_mem hnb)
  rw [node?_key hna, node?_key hnb] at hsym
  unfold outputsOf
  rw [hna]
  exact hsym.mpr h

lemma inputsOf_nodup {g : Graph K V} (hwf : WF g) (k : K) :
    (inputsOf g k).Nodup := by
  unfold inputsOf
  cases hfind : g.node? k with
  | none => exact List.nodup_nil
  | some n => exact (hwf.2.1 n (node?_mem hfind)).1

lemma outputsOf_nodup {g : Graph K V} (hwf : WF g) (k : K) :
    (outputsOf g k).Nodup := by
  unfold outputsOf
  cases hfind : g.node? k with
  | none => exact List.nodup_nil
  | some n => exact (hwf.2.1 n (node?_mem hfind)).2

/-- Pushing the outputs of a just-dequeued node preserves the loop
invariant (with the full-marking obligation for the dequeued node
discharged output by output). -/
lemma kahnPush_inv {g : Graph K V} (hwf : WF g) (src : K) :
    ∀ (todo : List K) (counts : K → Nat) (marked : K → K → Bool)
      (queue acc : List K),
    src ∈ acc →
    (∀ b ∈ todo, b ∈ outputsOf g src) →
    todo.Nodup →
    (∀ b ∈ todo, marked src b = false) →
    (∀ a b, marked a b = true → a ∈ acc ∧ b ∈ outputsOf g a) →
    (∀ a ∈ acc, ∀ b ∈ outputsOf g a, (a = src ∧ b ∈ todo) ∨ marked a b = true) →
    (∀ x ∈ g.keys, counts x = ((inputsOf g x).filter (fun i => ! marked i x)).length) →
    (∀ x ∈ g.keys, (x ∈ acc ++ queue ↔ counts x = 0)) →
    (acc ++ queue).Nodup →
    (∀ x ∈ acc ++ queue, x ∈ g.keys) →
    (∀ x ∈ acc, ∀ i ∈ inputsOf g x, i ∈ acc ∧ acc.indexOf i < acc.indexOf x) →
    KInv g (kahnPush src todo counts marked queue).2.2
      (kahnPush src todo counts marked queue).1
      (kahnPush src todo counts marked queue).2.1 acc := by
  intro todo
  induction todo with
  | nil =>
    intro counts marked queue acc hsrc _ _ _ hmSub hmFullx hcEq hsIff hnd hkeys hord
    refine ⟨hnd, hkeys, hmSub, ?_, hcEq, hsIff, hord⟩
    intro a ha b hb
    rcases hmFullx a ha b hb with ⟨_, hfalse⟩ | hm
    · cases hfalse
    · exact hm
  | cons o rest ih =>
    intro counts marked queue acc hsrc htodo hnd0 hunm hmSub hmFullx hcEq hsIff hnd hkeys hord
    have hosrc : o ∈ outputsOf g src := htodo o (List.mem_cons_self o rest)
    have hmso : marked src o = false := hunm o (List.mem_cons_self o rest)
    have hokeys : o ∈ g.keys := (mem_keys_outputsOf hwf hosrc).2
    have hsrcin : src ∈ inputsOf g o := mem_inputsOf_of_outputsOf hwf hosrc
    rw [List.nodup_cons] at hnd0
    -- the counter of `o` is positive: the edge src → o is not consumed yet
    have hcpos : 1 ≤ counts o := by
      rw [hcEq o hokeys]
      apply List.length_pos_of_mem
      apply List.mem_filter.mpr
      exact ⟨hsrcin, by rw [hmso]; rfl⟩
    have hstep : kahnPush src (o :: rest) counts marked queue
        = kahnPush src rest
            (fun x => if x = o then counts o - 1 else counts x)
            (fun x y => (decide (x = src) && decide (y = o)) || marked x y)
            (if counts o - 1 = 0 then queue ++ [o] else queue) := by
      conv_lhs => rw [kahnPush]
      rw [hmso]
      simp
    rw [hstep]
    set counts1 := fun x => if x = o then counts o - 1 else counts x with hc1
    set marked1 := fun x y => (decide (x = src) && decide (y = o)) || marked x y with hm1
    set queue1 := if counts o - 1 = 0 then queue ++ [o] else queue with hq1
    -- facts about the one-step updates
    have hmarked1_same : ∀ x y, ¬ y = o → marked1 x y = marked x y := by
      intro x y hy
      simp [hm1, hy]
    have hmarked1_o : ∀ x, marked1 x o = (decide (x = src) || marked x o) := by
      intro x
      simp [hm1]
    apply ih counts1 marked1 queue1 acc hsrc
    · intro b hb
      exact htodo b (List.mem_cons_of_mem o hb)
    · exact hnd0.2
    · intro b hb
      have hbo : ¬ b = o := fun h => hnd0.1 (h ▸ hb)
      rw [hmarked1_same src b hbo]
      exact hunm b (List.mem_cons_of_mem o hb)
    · intro a b hab
      simp only [hm1, Bool.or_eq_true, Bool.and_eq_true, decide_eq_true_eq] at hab
      rcases hab with ⟨rfl, rfl⟩ | hab
      · exact ⟨hsrc, hosrc⟩
      · exact hmSub a b hab
    · intro a ha b hb
      rcases hmFullx a ha b hb with ⟨rfl, hbt⟩ | hm
      · rcases List.mem_cons.mp hbt with rfl | hbr
        · right
          rw [hmarked1_o]
          simp
        · exact Or.inl ⟨rfl, hbr⟩
      · right
        by_cases hbo : b = o
        · subst hbo
          rw [hmarked1_o, hm]
          simp
        · rw [hmarked1_same a b hbo]
          exact hm
    · -- counters relative to the new marking
      intro x hx
      by_cases hxo : x = o
      · subst hxo
        simp only [hc1, if_pos rfl]
        have hfe : (inputsOf g x).filter (fun i => ! marked1 i x)
            = (inputsOf g x).filter (fun i => (! marked i x) && ! decide (i = src)) := by
          apply List.filter_congr
          intro i _
          rw [hmarked1_o]
          cases hms : marked i x <;> cases his : decide (i = src) <;> simp [hms, his]
        rw [hfe, length_filter_erase_one (inputsOf_nodup hwf x) hsrcin
          (fun i => ! marked i x) (by simp [hmso]), ← hcEq x hx]
      · simp only [hc1, if_neg hxo]
        rw [hcEq x hx]
        congr 1
        apply List.filter_congr
        intro i _
        rw [hmarked1_same i x hxo]
    · -- membership ↔ zero counter
      intro x hx
      by_cases hq : counts o - 1 = 0
      · simp only [hq1, if_pos hq]
        by_cases hxo : x = o
        · subst hxo
          simp only [hc1, if_pos rfl, hq, iff_true]
          rw [← List.append_assoc]
          exact List.mem_append_right _ (List.mem_singleton_self x)
        · have hmem : x ∈ acc ++ (queue ++ [x]) ↔ True := by simp
          rw [← List.append_assoc]
          have : x ∈ acc ++ queue ++ [o] ↔ x ∈ acc ++ queue := by
            simp [hxo]
          rw [this]
          simp only [hc1, if_neg hxo]
          exact hsIff x hx
      · simp only [hq1, if_neg hq]
        by_cases hxo : x = o
        · subst hxo
          simp only [hc1, if_pos rfl]
          constructor
          · intro hmem
            exact absurd ((hsIff x hx).mp hmem) (by omega)
          · intro h0
            exact absurd h0 hq
        · simp only [hc1, if_neg hxo]
          exact hsIff x hx
    · -- no duplicates among yielded plus queued
      by_cases hq : counts o - 1 = 0
      · simp only [hq1, if_pos hq]
        have hofresh : o ∉ acc ++ queue := by
          intro hmem
          have := (hsIff o hokeys).mp hmem
          omega
        rw [← List.append_assoc]
        apply List.Nodup.append hnd (List.nodup_singleton o)
        intro x hx hxo
        rw [List.mem_singleton] at hxo
        subst hxo
        exact hofresh hx
      · simp only [hq1, if_neg hq]
        exact hnd
    · intro x hxmem
      by_cases hq : counts o - 1 = 0
      · simp only [hq1, if_pos hq] at hxmem
        rw [← List.append_assoc] at hxmem
        rcases List.mem_append.mp hxmem with hxm | hxm
        · exact hkeys x hxm
        · rw [List.mem_singleton] at hxm
          subst hxm
          exact hokeys
      · simp only [hq1, if_neg hq] at hxmem
        exact hkeys x hxmem
    · exact hord

/-- The main loop of `Graph.topo_sort` drains the queue (within the fuel
supplied by `topoSort`) and re-establishes the invariant with an empty
queue at the final state. -/
lemma kahnLoop_inv {g : Graph K V} (hwf : WF g) :
    ∀ (fuel : Nat) (queue : List K) (counts : K → Nat)
      (marked : K → K → Bool) (acc : List K),
    KInv g queue counts marked acc →
    g.keys.length ≤ fuel + acc.length →
    ∃ acc2 counts2 marked2,
      kahnLoop g fuel queue counts marked acc = (acc2, counts2) ∧
      KInv g [] counts2 marked2 acc2 := by
  intro fuel
  induction fuel with
  | zero =>
    intro queue counts marked acc hinv hfuel
    cases queue with
    | nil => exact ⟨acc, counts, marked, rfl, hinv⟩
    | cons k rest =>
      exfalso
      have hlen : (acc ++ k :: rest).length ≤ g.keys.length :=
        nodup_subset_length_le hinv.nodupSeen hinv.seenKeys
      simp only [List.length_append, List.length_cons] at hlen
      omega
  | succ fuel ih =>
    intro queue counts marked acc hinv hfuel
    cases queue with
    | nil => exact ⟨acc, counts, marked, rfl, hinv⟩
    | cons k rest =>
      have hkkeys : k ∈ g.keys :=
        hinv.seenKeys k (List.mem_append_right acc (List.mem_cons_self k rest))
      have hkacc : k ∉ acc := by
        intro hmem
        have := hinv.nodupSeen
        rw [List.nodup_append] at this
        exact this.2.2 hmem (List.mem_cons_self k rest)
      have hassoc : ∀ (t : List K), (acc ++ [k]) ++ t = acc ++ (k :: t) := by
        intro t
        rw [List.append_assoc]
        rfl
      -- facts used for the new ordering entry
      have hc0 : counts k = 0 :=
        (hinv.sIff k hkkeys).mp
          (List.mem_append_right acc (List.mem_cons_self k rest))
      have hmarkedk : ∀ i ∈ inputsOf g k, marked i k = true := by
        intro i hi
        have := hinv.cEq k hkkeys
        rw [hc0] at this
        have hfe : (inputsOf g k).filter (fun i => ! marked i k) = [] :=
          List.length_eq_zero.mp this.symm
        have := List.filter_eq_nil_iff.mp hfe i hi
        cases hm : marked i k
        · exact absurd (by rw [hm]; rfl) this
        · rfl
      have hpush := kahnPush_inv hwf k (outputsOf g k) counts marked rest
        (acc ++ [k])
        (List.mem_append_right acc (List.mem_singleton_self k))
        (fun b hb => hb)
        (outputsOf_nodup hwf k)
        (by
          intro b hb
          cases hm : marked k b
          · rfl
          · exact absurd (hinv.mSub k b hm).1 hkacc)
        (by
          intro a b hab
          obtain ⟨ha, hb⟩ := hinv.mSub a b hab
          exact ⟨List.mem_append_left _ ha, hb⟩)
        (by
          intro a ha b hb
          rcases List.mem_append.mp ha with ha | ha
          · exact Or.inr (hinv.mFull a ha b hb)
          · rw [List.mem_singleton] at ha
            subst ha
            exact Or.inl ⟨rfl, hb⟩)
        hinv.cEq
        (by
          intro x hx
          rw [hassoc]
          exact hinv.sIff x hx)
        (by rw [hassoc]; exact hinv.nodupSeen)
        (by
          intro x hx
          rw [hassoc] at hx
          exact hinv.seenKeys x hx)
        (by
          intro x hxmem i hi
          rcases List.mem_append.mp hxmem with hxa | hxk
          · obtain ⟨hia, hidx⟩ := hinv.ordOk x hxa i hi
            refine ⟨List.mem_append_left _ hia, ?_⟩
            rw [List.indexOf_append_of_mem hia, List.indexOf_append_of_mem hxa]
            exact hidx
          · rw [List.mem_singleton] at hxk
            subst hxk
            have hmk := hmarkedk i hi
            obtain ⟨hia, _⟩ := hinv.mSub i x hmk
            refine ⟨List.mem_append_left _ hia, ?_⟩
            rw [List.indexOf_append_of_mem hia,
              List.indexOf_append_of_not_mem hkacc]
            have : List.indexOf i acc < acc.length :=
              List.indexOf_lt_length.mpr hia
            simp only [List.indexOf_cons_self]
            omega)
      have hstep : kahnLoop g (fuel + 1) (k :: rest) counts marked acc
          = kahnLoop g fuel
              (kahnPush k (outputsOf g k) counts marked rest).2.2
              (kahnPush k (outputsOf g k) counts marked rest).1
              (kahnPush k (outputsOf g k) counts marked rest).2.1
              (acc ++ [k]) := rfl
      rw [hstep]
      apply ih _ _ _ _ hpush
      simp only [List.length_append, List.length_singleton]
      omega

/-- The invariant holds at the seed state of `Graph.topo_sort`: the
queue holds the roots, every counter is the input count, and no edge is
consumed yet. -/
lemma kahn_initial {g : Graph K V} (hwf : WF g) :
    KInv g (rootsQueue g) (initCounts g) (fun _ _ => false) [] := by
  have hqsub : List.Sublist (rootsQueue g) g.keys :=
    (List.filter_sublist g.nodes).map Node.key
  unfold rootsQueue initCounts
  unfold rootsQueue at hqsub
  refine ⟨?_, ?_, ?_, ?_, ?_, ?_, ?_⟩
  · simpa using hqsub.nodup hwf.1
  · intro x hx
    simp only [List.nil_append] at hx
    exact hqsub.mem hx
  · intro a b hab
    cases hab
  · intro a ha
    cases ha
  · intro x _
    simp
  · intro x hx
    simp only [List.nil_append, List.mem_map, List.mem_filter]
    constructor
    · rintro ⟨n, ⟨hn, hemp⟩, rfl⟩
      rw [inputsOf_eq hwf.1 hn]
      rw [List.isEmpty_iff] at hemp
      simp [hemp]
    · intro h0
      obtain ⟨n, hn⟩ := node?_isSome_of_mem_keys hx
      have hni : n.inputs = [] := by
        have := node?_key hn
        unfold inputsOf at h0
        rw [hn] at h0
        exact List.length_eq_zero.mp h0
      refine ⟨n, ⟨node?_mem hn, ?_⟩, node?_key hn⟩
      rw [hni]
      rfl
  · intro x hx
    cases hx

/-- Executing `Graph.topo_sort` yields a final state satisfying the
invariant with an empty queue, and the raised-error flag is false
exactly when every remaining-input counter drained to zero. -/
lemma topoSort_final {g : Graph K V} (hwf : WF g) :
    ∃ counts2 marked2,
      KInv g [] counts2 marked2 (g.topoSort).1 ∧
      ((g.topoSort).2 = false ↔ ∀ x ∈ g.keys, counts2 x = 0) := by
  have hfuel : g.keys.length ≤ g.nodes.length + ([] : List K).length := by
    simp [Graph.keys]
  obtain ⟨acc2, counts2, marked2, heq, hinv⟩ :=
    kahnLoop_inv hwf g.nodes.length (rootsQueue g) (initCounts g)
      (fun _ _ => false) [] (kahn_initial hwf) hfuel
  have hrun : kahnRun g = (acc2, counts2) := by
    unfold kahnRun
    exact heq
  have h1 : (g.topoSort).1 = acc2 := by
    unfold Graph.topoSort
    rw [hrun]
  have h2 : (g.topoSort).2 = g.nodes.any (fun n => decide (0 < counts2 n.key)) := by
    unfold Graph.topoSort
    rw [hrun]
  refine ⟨counts2, marked2, h1 ▸ hinv, ?_⟩
  rw [h2]
  constructor
  · intro hfalse x hx
    simp only [Graph.keys, List.mem_map] at hx
    obtain ⟨n, hn, rfl⟩ := hx
    by_contra hne
    have hpos : 0 < counts2 n.key := Nat.pos_of_ne_zero hne
    have hany : g.nodes.any (fun n => decide (0 < counts2 n.key)) = true :=
      List.any_eq_true.mpr ⟨n, hn, by simpa using hpos⟩
    rw [hany] at hfalse
    cases hfalse
  · intro hall
    cases hany : g.nodes.any (fun n => decide (0 < counts2 n.key)) with
    | false => rfl
    | true =>
      exfalso
      obtain ⟨n, hn, hp⟩ := List.any_eq_true.mp hany
      have hz := hall n.key (List.mem_map_of_mem Node.key hn)
      simp only [decide_eq_true_eq] at hp
      omega

/-- If every member of a nonempty finite set has a predecessor inside
the set, the relation has a cycle (finite descending walks repeat). -/
lemma exists_cycle_of_forall_pred {α : Type} {R : α → α → Prop}
    {S : Finset α} (hne : S.Nonempty) (h : ∀ k ∈ S, ∃ i ∈ S, R i k) :
    ∃ a, Relation.TransGen R a a := by
  classical
  obtain ⟨k0, hk0⟩ := hne
  set f : α → α := fun k => if hk : k ∈ S then (h k hk).choose else k with hf
  have hfS : ∀ k ∈ S, f k ∈ S := by
    intro k hk
    simp only [hf, dif_pos hk]
    exact (h k hk).choose_spec.1
  have hfR : ∀ k ∈ S, R (f k) k := by
    intro k hk
    simp only [hf, dif_pos hk]
    exact (h k hk).choose_spec.2
  set seq : Nat → α := fun n => f^[n] k0 with hseq
  have hseqS : ∀ n, seq n ∈ S := by
    intro n
    induction n with
    | zero => exact hk0
    | succ m ihm =>
      have : seq (m + 1) = f (seq m) := by
        simp only [hseq, Function.iterate_succ_apply']
      rw [this]
      exact hfS _ ihm
  have hseqR : ∀ n, R (seq (n + 1)) (seq n) := by
    intro n
    have : seq (n + 1) = f (seq n) := by
      simp only [hseq, Function.iterate_succ_apply']
    rw [this]
    exact hfR _ (hseqS n)
  have hchain : ∀ i d, Relation.TransGen R (seq (i + d + 1)) (seq i) := by
    intro i d
    induction d with
    | zero => exact Relation.TransGen.single (hseqR i)
    | succ m ihm =>
      have hstep : R (seq (i + m + 2)) (seq (i + m + 1)) := hseqR (i + m + 1)
      have : i + (m + 1) + 1 = i + m + 2 := by omega
      rw [this]
      exact Relation.TransGen.head hstep ihm
  have hmaps : ∀ n ∈ Finset.range (S.card + 1), seq n ∈ S :=
    fun n _ => hseqS n
  have hcard : S.card < (Finset.range (S.card + 1)).card := by
    simp
  obtain ⟨i, _, j, _, hij, hseqeq⟩ :=
    Finset.exists_ne_map_eq_of_card_lt_of_maps_to hcard hmaps
  rcases Nat.lt_or_ge i j with hlt | hge
  · obtain ⟨d, rfl⟩ : ∃ d, j = i + d + 1 := ⟨j - i - 1, by omega⟩
    exact ⟨seq i, hseqeq ▸ hchain i d⟩
  · have hlt2 : j < i := by omega
    obtain ⟨d, rfl⟩ : ∃ d, i = j + d + 1 := ⟨i - j - 1, by omega⟩
    exact ⟨seq j, hseqeq ▸ hchain j d⟩

/-- In an acyclic well-formed graph, every counter drains to zero at the
end of the loop (Kahn completeness). -/
lemma counts_zero_of_acyclic {g : Graph K V} (hwf : WF g) (hac : Acyclic g)
    {counts2 : K → Nat} {marked2 : K → K → Bool} {acc2 : List K}
    (hinv : KInv g [] counts2 marked2 acc2) :
    ∀ x ∈ g.keys, counts2 x = 0 := by
  classical
  by_contra hnot
  push_neg at hnot
  obtain ⟨x0, hx0, hc0⟩ := hnot
  set S : Finset K := (g.keys.filter (fun x => ! decide (x ∈ acc2))).toFinset
    with hS
  have hmemS : ∀ x, x ∈ S ↔ (x ∈ g.keys ∧ x ∉ acc2) := by
    intro x
    simp [hS, List.mem_filter]
  have hx0S : x0 ∈ S := by
    rw [hmemS]
    refine ⟨hx0, ?_⟩
    intro hmem
    have := (hinv.sIff x0 hx0).mp (by simpa using hmem)
    exact hc0 this
  have hpred : ∀ k ∈ S, ∃ i ∈ S, Edge g i k := by
    intro k hk
    obtain ⟨hkkeys, hkacc⟩ := (hmemS k).mp hk
    have hcne : counts2 k ≠ 0 := by
      intro h0
      exact hkacc (by simpa using (hinv.sIff k hkkeys).mpr h0)
    have hfilter : ((inputsOf g k).filter (fun i => ! marked2 i k)).length ≠ 0 := by
      rw [← hinv.cEq k hkkeys]
      exact hcne
    have : ∃ i, i ∈ (inputsOf g k).filter (fun i => ! marked2 i k) := by
      cases hl : (inputsOf g k).filter (fun i => ! marked2 i k) with
      | nil => exact absurd (by rw [hl]; rfl) hfilter
      | cons i t => exact ⟨i, hl ▸ List.mem_cons_self i t⟩
    obtain ⟨i, hifil⟩ := this
    obtain ⟨hiin, hium⟩ := List.mem_filter.mp hifil
    have hedge : Edge g i k := mem_outputsOf_of_inputsOf hwf hkkeys hiin
    have hikeys : i ∈ g.keys := (mem_keys_outputsOf hwf hedge).1
    have hiacc : i ∉ acc2 := by
      intro hmem
      have := hinv.mFull i hmem k hedge
      rw [this] at hium
      cases hium
    exact ⟨i, (hmemS i).mpr ⟨hikeys, hiacc⟩, hedge⟩
  obtain ⟨a, hcyc⟩ := exists_cycle_of_forall_pred ⟨x0, hx0S⟩ hpred
  exact hac a hcyc

/-- Final-state ordering: an edge whose head was yielded has its tail
yielded strictly earlier. -/
lemma yielded_order {g : Graph K V} (hwf : WF g)
    {counts2 : K → Nat} {marked2 : K → K → Bool} {acc2 : List K}
    (hinv : KInv g [] counts2 marked2 acc2) :
    ∀ a b, Edge g a b → b ∈ acc2 →
      a ∈ acc2 ∧ acc2.indexOf a < acc2.indexOf b := by
  intro a b hedge hb
  have hain : a ∈ inputsOf g b := mem_inputsOf_of_outputsOf hwf hedge
  exact hinv.ordOk b hb a hain

/-- No node lying on a cycle is ever yielded by the loop. -/
lemma cycle_node_not_yielded {g : Graph K V} (hwf : WF g)
    {counts2 : K → Nat} {marked2 : K → K → Bool} {acc2 : List K}
    (hinv : KInv g [] counts2 marked2 acc2) :
    ∀ a, Relation.TransGen (Edge g) a a → a ∉ acc2 := by
  have key : ∀ x y, Relation.TransGen (Edge g) x y → y ∈ acc2 →
      x ∈ acc2 ∧ acc2.indexOf x < acc2.indexOf y := by
    intro x y hxy
    induction hxy with
    | single h =>
      intro hy
      exact yielded_order hwf hinv _ _ h hy
    | tail _ hzy ihz =>
      intro hy
      obtain ⟨hz, hidx1⟩ := yielded_order hwf hinv _ _ hzy hy
      obtain ⟨hx, hidx2⟩ := ihz hz
      exact ⟨hx, lt_trans hidx2 hidx1⟩
  intro a hcyc hmem
  obtain ⟨_, hidx⟩ := key a a hcyc hmem
  exact lt_irrefl _ hidx

lemma transGen_first_step {α : Type} {r : α → α → Prop} {a c : α}
    (h : Relation.TransGen r a c) : ∃ b, r a b := by
  induction h with
  | single h => exact ⟨_, h⟩
  | tail _ _ ih => exact ih

/-- If the loop finishes with no error flag, the graph was acyclic (the
converse direction of cycle detection, used to discharge acyclicity at
concrete graphs). -/
lemma acyclic_of_no_error {g : Graph K V} (hwf : WF g)
    (herr : (g.topoSort).2 = false) : Acyclic g := by
  intro a hcyc
  obtain ⟨counts2, marked2, hinv, hiff⟩ := topoSort_final hwf
  have hzero := hiff.mp herr
  have hnot := cycle_node_not_yielded hwf hinv a hcyc
  obtain ⟨b, hedge⟩ := transGen_first_step hcyc
  have hak : a ∈ g.keys := (mem_keys_outputsOf hwf hedge).1
  have hmem : a ∈ (g.topoSort).1 := by
    have := (hinv.sIff a hak).mpr (hzero a hak)
    simpa using this
  exact hnot hmem

/-- A six-node DAG, the graph built by `src/test/test_graph.py`
(`node1 → node3 ← node2`, `node3 → node4/node5 → node6`). -/
def exampleDag : Graph Nat Unit :=
  ⟨[⟨1, (), [], [3]⟩, ⟨2, (), [], [3]⟩, ⟨3, (), [1, 2], [4, 5]⟩,
    ⟨4, (), [3], [6]⟩, ⟨5, (), [3], [6]⟩, ⟨6, (), [4, 5], []⟩]⟩

/-- A graph with an isolated node `1` and a two-node cycle `2 ↔ 3`. -/
def exampleCycleGraph : Graph Nat Unit :=
  ⟨[⟨1, (), [], []⟩, ⟨2, (), [3], [3]⟩, ⟨3, (), [2], [2]⟩]⟩

/-- C1: for every well-formed graph that contains no cycle,
`Graph.topo_sort` finishes without raising, yields each node of the
graph exactly once (the yielded list is duplicate-free and its members
are exactly the graph's keys), and yields every node strictly before
each of the nodes in its `outputs` set. -/
theorem topo_sort_dag_correct (g : Graph K V) (hwf : WF g)
    (hac : Acyclic g) :
    (g.topoSort).2 = false ∧
    (g.topoSort).1.Nodup ∧
    (∀ k, k ∈ (g.topoSort).1 ↔ k ∈ g.keys) ∧
    (∀ n ∈ g.nodes, ∀ b ∈ n.outputs,
      (g.topoSort).1.indexOf n.key < (g.topoSort).1.indexOf b) := by
  obtain ⟨counts2, marked2, hinv, herr⟩ := topoSort_final hwf
  have hzero := counts_zero_of_acyclic hwf hac hinv
  have hall : ∀ k ∈ g.keys, k ∈ (g.topoSort).1 := by
    intro k hk
    have := (hinv.sIff k hk).mpr (hzero k hk)
    simpa using this
  refine ⟨herr.mpr hzero, ?_, ?_, ?_⟩
  · have := hinv.nodupSeen
    simpa using this
  · intro k
    constructor
    · intro hk
      exact hinv.seenKeys k (by simpa using hk)
    · exact hall k
  · intro n hn b hb
    have hedge : Edge g n.key b := by
      unfold Edge
      rw [outputsOf_eq hwf.1 hn]
      exact hb
    have hbkeys : b ∈ g.keys := (mem_keys_outputsOf hwf hedge).2
    obtain ⟨_, hidx⟩ := yielded_order hwf hinv n.key b hedge (hall b hbkeys)
    exact hidx

/-- C1 witness: the invocation of the theorem at the concrete six-node
DAG of the repository's own graph test. -/
theorem topo_sort_dag_correct_witness :
    WF exampleDag ∧ Acyclic exampleDag ∧
    ((exampleDag.topoSort).2 = false ∧
     (exampleDag.topoSort).1.Nodup ∧
     (∀ k, k ∈ (exampleDag.topoSort).1 ↔ k ∈ exampleDag.keys) ∧
     (∀ n ∈ exampleDag.nodes, ∀ b ∈ n.outputs,
       (exampleDag.topoSort).1.indexOf n.key
         < (exampleDag.topoSort).1.indexOf b)) :=
  have hwf : WF exampleDag := by decide
  have hac : Acyclic exampleDag :=
    acyclic_of_no_error hwf (by decide)
  ⟨hwf, hac, topo_sort_dag_correct exampleDag hwf hac⟩

/-- C2 counterexample: on the concrete graph with an isolated node and a
two-node cycle, `topo_sort` does raise the cycle error, but only after
yielding the isolated node — output is produced before the error is
reported, contradicting the claim that no node is yielded first. -/
theorem topo_sort_cycle_partial_output_cex :
    (¬ Acyclic exampleCycleGraph) ∧
    (exampleCycleGraph.topoSort).2 = true ∧
    (exampleCycleGraph.topoSort).1 = [1] := by
  refine ⟨?_, by decide, by decide⟩
  intro hac
  have h23 : Edge exampleCycleGraph 2 3 := by decide
  have h32 : Edge exampleCycleGraph 3 2 := by decide
  exact hac 2 (Relation.TransGen.head h23 (Relation.TransGen.single h32))

/-- C2 amended: for every well-formed graph that contains a cycle,
`Graph.topo_sort` reports the cycle error after the yield phase; nodes
outside every cycle may already have been yielded by then, but no node
lying on a cycle is ever yielded. -/
theorem topo_sort_cycle_reports_error (g : Graph K V) (hwf : WF g)
    (hcyc : ¬ Acyclic g) :
    (g.topoSort).2 = true ∧
    ∀ a, Relation.TransGen (Edge g) a a → a ∉ (g.topoSort).1 := by
  obtain ⟨counts2, marked2, hinv, herr⟩ := topoSort_final hwf
  have hnotyield : ∀ a, Relation.TransGen (Edge g) a a → a ∉ (g.topoSort).1 :=
    cycle_node_not_yielded hwf hinv
  refine ⟨?_, hnotyield⟩
  unfold Acyclic at hcyc
  push_neg at hcyc
  obtain ⟨a, hcyca⟩ := hcyc
  obtain ⟨b, hedge⟩ := transGen_first_step hcyca
  have hak : a ∈ g.keys := (mem_keys_outputsOf hwf hedge).1
  cases hflag : (g.topoSort).2 with
  | true => rfl
  | false =>
    exfalso
    have hzero := herr.mp hflag
    have hmem : a ∈ (g.topoSort).1 := by
      have := (hinv.sIff a hak).mpr (hzero a hak)
      simpa using this
    exact hnotyield a hcyca hmem

/-- C2 witness: the amended theorem applied to the concrete cyclic
graph. -/
theorem topo_sort_cycle_reports_error_witness :
    WF exampleCycleGraph ∧ (¬ Acyclic exampleCycleGraph) ∧
    ((exampleCycleGraph.topoSort).2 = true ∧
     ∀ a, Relation.TransGen (Edge exampleCycleGraph) a a →
       a ∉ (exampleCycleGraph.topoSort).1) :=
  have hwf : WF exampleCycleGraph := by decide
  have hcyc : ¬ Acyclic exampleCycleGraph := by
    intro hac
    have h23 : Edge exampleCycleGraph 2 3 := by decide
    have h32 : Edge exampleCycleGraph 3 2 := by decide
    exact hac 2 (Relation.TransGen.head h23 (Relation.TransGen.single h32))
  ⟨hwf, hcyc, topo_sort_cycle_reports_error exampleCycleGraph hwf hcyc⟩

/-- C8: the symmetric-edge invariant (`b ∈ a.outputs ↔ a ∈ b.inputs`,
for all nodes present in the graph) is preserved by the graph
operations: `Node.connect` records both directions of the new edge,
`Graph.remove` disconnects the removed node from every neighbour's
adjacency set before dropping it, and `Graph.add` of a fresh edge-free
node leaves all edges untouched. -/
theorem graph_symmetric_edges_preserved [DecidableEq V] (g : Graph K V)
    (hwf : WF g) (a b k : K) (ha : a ∈ g.keys) (hb : b ∈ g.keys)
    (_hk : k ∈ g.keys) (n : Node K V) (hni : n.inputs = [])
    (hno : n.outputs = []) :
    (b ∈ outputsOf (g.connect a b) a ∧ a ∈ inputsOf (g.connect a b) b) ∧
    SymEdges (g.connect a b) ∧
    SymEdges (g.removeNode k) ∧
    (∀ g', g.addNode n = some g' → SymEdges g') := by
  have hsym : SymEdges g := hwf.2.2.2
  refine ⟨⟨?_, ?_⟩, symEdges_connect hsym a b, symEdges_remove hsym k,
    fun g' hadd => symEdges_add hwf hni hno hadd⟩
  · obtain ⟨na, hna⟩ := node?_isSome_of_mem_keys ha
    unfold outputsOf
    rw [connect_node?, hna]
    show b ∈ (connectNode a b na).outputs
    rw [connectNode_outputs, if_pos (node?_key hna)]
    exact mem_insertOnce.mpr (Or.inr rfl)
  · obtain ⟨nb, hnb⟩ := node?_isSome_of_mem_keys hb
    unfold inputsOf
    rw [connect_node?, hnb]
    show a ∈ (connectNode a b nb).inputs
    rw [connectNode_inputs, if_pos (node?_key hnb)]
    exact mem_insertOnce.mpr (Or.inr rfl)

/-- C8 witness: the theorem applied to a concrete two-node graph with an
edge, a removal key and a fresh node. -/
theorem graph_symmetric_edges_preserved_witness :
    WF (⟨[⟨1, (), [], [2]⟩, ⟨2, (), [1], []⟩]⟩ : Graph Nat Unit) ∧
    ((2 ∈ outputsOf ((⟨[⟨1, (), [], [2]⟩, ⟨2, (), [1], []⟩]⟩ :
        Graph Nat Unit).connect 1 2) 1 ∧
      1 ∈ inputsOf ((⟨[⟨1, (), [], [2]⟩, ⟨2, (), [1], []⟩]⟩ :
        Graph Nat Unit).connect 1 2) 2) ∧
     SymEdges ((⟨[⟨1, (), [], [2]⟩, ⟨2, (), [1], []⟩]⟩ :
        Graph Nat Unit).connect 1 2) ∧
     SymEdges ((⟨[⟨1, (), [], [2]⟩, ⟨2, (), [1], []⟩]⟩ :
        Graph Nat Unit).removeNode 1) ∧
     (∀ g', (⟨[⟨1, (), [], [2]⟩, ⟨2, (), [1], []⟩]⟩ :
        Graph Nat Unit).addNode ⟨3, (), [], []⟩ = some g' → SymEdges g')) :=
  have hwf : WF (⟨[⟨1, (), [], [2]⟩, ⟨2, (), [1], []⟩]⟩ : Graph Nat Unit) := by
    decide
  ⟨hwf, graph_symmetric_edges_preserved _ hwf 1 2 1 (by decide) (by decide)
    (by decide) ⟨3, (), [], []⟩ rfl rfl⟩

/-!
### Hashing and the skip decision (`src/core/buildgraph.py`)

Byte strings are `List Nat`; identifiers, filenames and directories are
atoms (`Nat`), with `encodeAtom` standing in for their UTF-8 encoding.
The incremental SHA-1 digest is modelled by the concatenated update
stream: two digests are equal exactly when their update streams are
(collisions of the real SHA-1 are out of scope).
-/

/-- The UTF-8 encoding of an atom (identifier or path) as folded into
the digest; injective, like the encoding it stands for. -/
def encodeAtom (a : Nat) : List Nat := [a]

/-- `hashing.DataComponent` / `hashing.FileComponent`. -/
inductive HashComponent : Type
  | data (bytes : List Nat)
  | file (filename : Nat) (isInput : Bool)
deriving DecidableEq

/-- An `Action` of `src/core/buildgraph.py`, restricted to the fields
that feed `compute_hash_key` and `skippable`: its identifier, the
`pure` flag, declared input/output files, the identifiers of its
action-graph dependencies (`Action.deps()`), the owning scope's
directory, and the `_action_key` memo. -/
structure Action where
  identifier : Nat
  pure : Bool
  inputs : List Nat
  outputs : List Nat
  deps : List Nat
  scopeDirectory : Nat
  actionKey : Option (List Nat)
deriving DecidableEq

/-- The ambient filesystem and session state that `compute_hash_key` and
`skippable` consult: the Craftr version string, the build directory,
`path.canonical(path.rel(f, dir))`, file reads (`none` models
`FileNotFoundError` / `PermissionError`) and `path.exists`. -/
structure HashEnv where
  version : List Nat
  buildDirectory : Nat
  relCanonical : Nat → Nat → Nat
  readFile : Nat → Option (List Nat)
  pathExists : Nat → Bool

/-- `Action.get_hash_components()`: the identifier as a data component,
then every input as `File(path, true)`, then every output as
`File(path, false)`. -/
def getHashComponents (a : Action) : List HashComponent :=
  HashComponent.data (encodeAtom a.identifier) ::
    (a.inputs.map (fun f => HashComponent.file f true) ++
     a.outputs.map (fun f => HashComponent.file f false))

/-- One `hasher.update` group of `compute_hash_key`: a data component
folds its bytes; a file component folds the canonical path relative to
the scope directory (inputs) or the build directory (outputs), and for
inputs additionally the file's content when it is readable — an
unreadable input folds no content (`except (FileNotFoundError,
PermissionError): pass`). -/
def foldComponent (env : HashEnv) (scopeDir : Nat) (h : List Nat) :
    HashComponent → List Nat
  | HashComponent.data bs => h ++ bs
  | HashComponent.file f isInput =>
    let dir := if isInput then scopeDir else env.buildDirectory
    let h1 := h ++ encodeAtom (env.relCanonical f dir)
    if isInput then
      match env.readFile f with
      | some content => h1 ++ content
      | none => h1
    else h1

/-- The `RuntimeError` of `compute_hash_key`: a dependency has not
completed. -/
inductive HashError : Type
  | depNotCompleted (dep : Nat)
deriving DecidableEq

/-- The digest of an action ignoring the memo and the dependency check:
version string first, then every hash component in order. -/
def pureHashKey (env : HashEnv) (a : Action) : List Nat :=
  (getHashComponents a).foldl (foldComponent env a.scopeDirectory) env.version

/-- `Action.compute_hash_key()`: return the memo when present; raise if
some dependency (looked up through `completed`) has not completed;
otherwise fold the version string and all hash components. -/
def computeHashKey (env : HashEnv) (completed : Nat → Bool) (a : Action) :
    Except HashError (List Nat) :=
  match a.actionKey with
  | some k => Except.ok k
  | none =>
    match a.deps.find? (fun d => ! completed d) with
    | some d => Except.error (HashError.depNotCompleted d)
    | none => Except.ok (pureHashKey env a)

/-- The key `compute_hash_key` produces when it does not raise: the memo
if present, else the fresh digest. -/
def keyOf (env : HashEnv) (a : Action) : List Nat :=
  match a.actionKey with
  | some k => k
  | none => pureHashKey env a

/-- `Action.skippable(build)`: not skippable when no key is cached or
the cached key differs from the fresh `compute_hash_key()`; when they
match, skippable iff every declared output path exists. A raise from
`compute_hash_key` propagates. -/
def skippable (env : HashEnv) (completed : Nat → Bool)
    (cachedKey : Nat → Option (List Nat)) (a : Action) :
    Except HashError Bool :=
  match cachedKey a.identifier with
  | none => Except.ok false
  | some ck =>
    match computeHashKey env completed a with
    | Except.error e => Except.error e
    | Except.ok k =>
      if ck = k then Except.ok (a.outputs.all env.pathExists)
      else Except.ok false

lemma computeHashKey_ok_keyOf {env : HashEnv} {completed : Nat → Bool}
    {a : Action} {k : List Nat}
    (h : computeHashKey env completed a = Except.ok k) : k = keyOf env a := by
  unfold computeHashKey at h
  unfold keyOf
  cases hm : a.actionKey with
  | some k0 =>
    rw [hm] at h
    cases h
    rfl
  | none =>
    rw [hm] at h
    cases hf : a.deps.find? (fun d => ! completed d) with
    | some d => rw [hf] at h; cases h
    | none => rw [hf] at h; cases h; rfl

/-- With every dependency completed, `compute_hash_key` never raises. -/
lemma computeHashKey_total {env : HashEnv} {completed : Nat → Bool}
    {a : Action} (hdeps : ∀ d ∈ a.deps, completed d = true) :
    computeHashKey env completed a = Except.ok (keyOf env a) := by
  unfold computeHashKey keyOf
  cases hm : a.actionKey with
  | some k0 => rfl
  | none =>
    have hf : a.deps.find? (fun d => ! completed d) = none := by
      rw [List.find?_eq_none]
      intro d hd
      rw [hdeps d hd]
      simp
    rw [hf]

/-- C6: for every action whose hash key is not yet memoized, if some
action-level dependency is not completed, `compute_hash_key` raises
(returns an error) and produces no key. -/
theorem compute_hash_key_incomplete_dep_fails (env : HashEnv)
    (completed : Nat → Bool) (a : Action) (hmemo : a.actionKey = none)
    (hdep : ∃ d ∈ a.deps, completed d = false) :
    (∃ e, computeHashKey env completed a = Except.error e) ∧
    (∀ k, computeHashKey env completed a ≠ Except.ok k) := by
  obtain ⟨d, hd, hc⟩ := hdep
  have hsome : (a.deps.find? (fun d => ! completed d)).isSome := by
    rw [List.find?_isSome]
    exact ⟨d, hd, by rw [hc]; rfl⟩
  obtain ⟨d0, hd0⟩ := Option.isSome_iff_exists.mp hsome
  have hres : computeHashKey env completed a
      = Except.error (HashError.depNotCompleted d0) := by
    unfold computeHashKey
    rw [hmemo, hd0]
  constructor
  · exact ⟨HashError.depNotCompleted d0, hres⟩
  · intro k hk
    rw [hres] at hk
    cases hk

/-- C6 witness: a concrete unmemoized action with one incomplete
dependency. -/
theorem compute_hash_key_incomplete_dep_fails_witness :
    (⟨7, true, [], [], [5], 0, none⟩ : Action).actionKey = none ∧
    (∃ d ∈ (⟨7, true, [], [], [5], 0, none⟩ : Action).deps,
      (fun _ => false : Nat → Bool) d = false) ∧
    ((∃ e, computeHashKey ⟨[], 0, fun _ _ => 0, fun _ => none, fun _ => true⟩
        (fun _ => false) ⟨7, true, [], [], [5], 0, none⟩ = Except.error e) ∧
     (∀ k, computeHashKey ⟨[], 0, fun _ _ => 0, fun _ => none, fun _ => true⟩
        (fun _ => false) ⟨7, true, [], [], [5], 0, none⟩ ≠ Except.ok k)) :=
  ⟨rfl, ⟨5, by decide, rfl⟩,
    compute_hash_key_incomplete_dep_fails _ _ _ rfl ⟨5, by decide, rfl⟩⟩

/-- C7: with all dependencies completed, `compute_hash_key` always
returns a key — an unreadable input never fails the computation — and
making one file unreadable produces exactly the key obtained when that
file is readable with empty content: only the content-fold of that file
is skipped, every other component is still folded in. -/
theorem compute_hash_key_unreadable_input_skipped (env : HashEnv)
    (completed : Nat → Bool) (a : Action) (f : Nat)
    (hdeps : ∀ d ∈ a.deps, completed d = true) :
    (∃ k, computeHashKey env completed a = Except.ok k) ∧
    computeHashKey
        { env with readFile := fun x => if x = f then none else env.readFile x }
        completed a
      = computeHashKey
          { env with readFile := fun x => if x = f then some [] else env.readFile x }
          completed a := by
  constructor
  · exact ⟨keyOf env a, computeHashKey_total hdeps⟩
  · set env1 : HashEnv :=
      { env with readFile := fun x => if x = f then none else env.readFile x }
    set env2 : HashEnv :=
      { env with readFile := fun x => if x = f then some [] else env.readFile x }
    have hfold : ∀ sd, foldComponent env1 sd = foldComponent env2 sd := by
      intro sd
      funext h c
      cases c with
      | data bs => rfl
      | file f0 isInput =>
        by_cases hf0 : f0 = f
        · subst hf0
          cases isInput with
          | false => rfl
          | true =>
            show (match env1.readFile f0 with
              | some content => (h ++ encodeAtom (env1.relCanonical f0 sd)) ++ content
              | none => h ++ encodeAtom (env1.relCanonical f0 sd))
              = (match env2.readFile f0 with
              | some content => (h ++ encodeAtom (env2.relCanonical f0 sd)) ++ content
              | none => h ++ encodeAtom (env2.relCanonical f0 sd))
            have h1 : env1.readFile f0 = none := by simp [env1]
            have h2 : env2.readFile f0 = some [] := by simp [env2]
            rw [h1, h2]
            simp
        · cases isInput with
          | false => rfl
          | true =>
            show (match env1.readFile f0 with
              | some content => (h ++ encodeAtom (env1.relCanonical f0 sd)) ++ content
              | none => h ++ encodeAtom (env1.relCanonical f0 sd))
              = (match env2.readFile f0 with
              | some content => (h ++ encodeAtom (env2.relCanonical f0 sd)) ++ content
              | none => h ++ encodeAtom (env2.relCanonical f0 sd))
            have h1 : env1.readFile f0 = env.readFile f0 := by simp [env1, hf0]
            have h2 : env2.readFile f0 = env.readFile f0 := by simp [env2, hf0]
            rw [h1, h2]
    rw [computeHashKey_total hdeps, computeHashKey_total hdeps]
    unfold keyOf
    cases hm : a.actionKey with
    | some k0 => rfl
    | none =>
      unfold pureHashKey
      rw [hfold a.scopeDirectory]

/-- A concrete hash environment for the C7 witness. -/
def envW7 : HashEnv := ⟨[3], 1, fun f d => f + d, fun _ => some [8], fun _ => true⟩

/-- A concrete unmemoized action with one input and one output file. -/
def actW7 : Action := ⟨7, true, [4], [9], [], 0, none⟩

/-- C7 witness: a concrete action with one input file; the key exists
and the unreadable-input key equals the empty-content key. -/
theorem compute_hash_key_unreadable_input_skipped_witness :
    (∀ d ∈ actW7.deps, (fun _ => true : Nat → Bool) d = true) ∧
    ((∃ k, computeHashKey envW7 (fun _ => true) actW7 = Except.ok k) ∧
     computeHashKey
        { envW7 with readFile := fun x => if x = 4 then none
            else envW7.readFile x } (fun _ => true) actW7
      = computeHashKey
        { envW7 with readFile := fun x => if x = 4 then some []
            else envW7.readFile x } (fun _ => true) actW7) :=
  And.intro (by decide)
    (compute_hash_key_unreadable_input_skipped envW7 (fun _ => true) actW7 4
      (by decide))

/-- C3 counterexample: a concrete action with `pure = false`, a
memoized key matching the cached key and no declared outputs is reported
skippable — `Action.skippable` never consults the `pure` flag, so the
claimed "false whenever pure is false" fails. -/
theorem skippable_ignores_pure_cex :
    (⟨7, false, [], [], [], 0, some [9]⟩ : Action).pure = false ∧
    skippable ⟨[], 0, fun _ _ => 0, fun _ => none, fun _ => true⟩
      (fun _ => true) (fun i => if i = 7 then some [9] else none)
      ⟨7, false, [], [], [], 0, some [9]⟩ = Except.ok true :=
  ⟨rfl, rfl⟩

/-- C3 amended: `Action.skippable` does not consult the `pure` flag at
all; it returns true exactly when a previously stored key exists, that
stored key equals the freshly computed hash key, and every declared
output path exists on disk — in particular it is false whenever any
declared output is missing, even with matching keys. -/
theorem skippable_iff_cached_key_and_outputs (env : HashEnv)
    (completed : Nat → Bool) (cachedKey : Nat → Option (List Nat))
    (a : Action) (k : List Nat)
    (hkey : computeHashKey env completed a = Except.ok k) :
    (∀ b, skippable env completed cachedKey { a with pure := b }
      = skippable env completed cachedKey a) ∧
    (skippable env completed cachedKey a = Except.ok true ↔
      (cachedKey a.identifier = some k ∧
       ∀ f ∈ a.outputs, env.pathExists f = true)) := by
  constructor
  · intro b
    rfl
  · cases hc : cachedKey a.identifier with
    | none =>
      have hred : skippable env completed cachedKey a = Except.ok false := by
        unfold skippable
        rw [hc]
      rw [hred]
      constructor
      · intro h
        cases h
      · rintro ⟨h, _⟩
        cases h
    | some ck =>
      have hred : skippable env completed cachedKey a
          = (if ck = k then Except.ok (a.outputs.all env.pathExists)
             else Except.ok false) := by
        unfold skippable
        rw [hc, hkey]
      rw [hred]
      by_cases hck : ck = k
      · subst hck
        rw [if_pos rfl]
        constructor
        · intro h
          have hall : a.outputs.all env.pathExists = true := by
            cases hl : a.outputs.all env.pathExists
            · rw [hl] at h
              cases h
            · rfl
          exact ⟨rfl, fun f hf => List.all_eq_true.mp hall f hf⟩
        · rintro ⟨_, hout⟩
          have hall : a.outputs.all env.pathExists = true :=
            List.all_eq_true.mpr (fun f hf => hout f hf)
          rw [hall]
      · rw [if_neg hck]
        constructor
        · intro h
          cases h
        · rintro ⟨hsome, _⟩
          have : ck = k := by
            injection hsome
          exact absurd this hck

/-- C3 amended witness: keys match but a declared output is missing, so
the action is not skippable; with the output present it is. -/
theorem skippable_iff_cached_key_and_outputs_witness :
    computeHashKey ⟨[], 0, fun _ _ => 0, fun _ => none, fun _ => false⟩
      (fun _ => true) ⟨7, true, [], [4], [], 0, some [9]⟩
      = Except.ok [9] ∧
    ((∀ b, skippable ⟨[], 0, fun _ _ => 0, fun _ => none, fun _ => false⟩
        (fun _ => true) (fun i => if i = 7 then some [9] else none)
        { (⟨7, true, [], [4], [], 0, some [9]⟩ : Action) with pure := b }
      = skippable ⟨[], 0, fun _ _ => 0, fun _ => none, fun _ => false⟩
        (fun _ => true) (fun i => if i = 7 then some [9] else none)
        ⟨7, true, [], [4], [], 0, some [9]⟩) ∧
     (skippable ⟨[], 0, fun _ _ => 0, fun _ => none, fun _ => false⟩
        (fun _ => true) (fun i => if i = 7 then some [9] else none)
        ⟨7, true, [], [4], [], 0, some [9]⟩ = Except.ok true ↔
      ((fun i => if i = 7 then some [9] else none : Nat → Option (List Nat)) 7
          = some [9] ∧
       ∀ f ∈ [4], (fun _ => false : Nat → Bool) f = true))) :=
  ⟨rfl, skippable_iff_cached_key_and_outputs _ _ _ _ [9] rfl⟩

/-!
### Command sequencing (`src/craftr/actions/commands.py`)

`Commands.execute` drives its command list strictly in order. A command
line is a list of argv atoms; `run` is the subprocess oracle returning
each spawned command's exit code.
-/

/-- `Commands.execute`: spawn each command in list order, break on the
first non-zero return code, and report that code (`0` when every
command, or an empty list, succeeds). The second component instruments
the commands actually spawned, in spawn order. -/
def commandsExecute (run : List Nat → Int) :
    List (List Nat) → Int × List (List Nat)
  | [] => (0, [])
  | c :: rest =>
    let code := run c
    if code ≠ 0 then (code, [c])
    else
      let r := commandsExecute run rest
      (r.1, c :: r.2)

/-- C5: when the command list is a prefix of successes followed by a
failing command, execution spawns exactly that prefix plus the failing
command, in list order; nothing after the failure runs, and the
reported exit code is the first failing command's code. -/
theorem commands_execute_stops_at_first_failure (run : List Nat → Int)
    (pre : List (List Nat)) (c : List Nat) (post : List (List Nat))
    (hpre : ∀ x ∈ pre, run x = 0) (hc : run c ≠ 0) :
    commandsExecute run (pre ++ c :: post) = (run c, pre ++ [c]) := by
  induction pre with
  | nil =>
    show commandsExecute run (c :: post) = (run c, [c])
    simp only [commandsExecute]
    rw [if_pos hc]
  | cons x xs ih =>
    have hx : run x = 0 := hpre x (List.mem_cons_self x xs)
    have hxs : ∀ y ∈ xs, run y = 0 := fun y hy => hpre y (List.mem_cons_of_mem x hy)
    show commandsExecute run (x :: (xs ++ c :: post)) = (run c, (x :: xs) ++ [c])
    simp only [commandsExecute]
    rw [ih hxs, hx]
    simp

/-- C5 witness: two commands, the first failing with code 2 — the
second is never spawned and code 2 is reported. -/
theorem commands_execute_stops_at_first_failure_witness :
    (∀ x ∈ ([] : List (List Nat)),
      (fun cmd => if cmd = [1] then (2 : Int) else 0) x = 0) ∧
    ((fun cmd => if cmd = [1] then (2 : Int) else 0) [1] ≠ 0) ∧
    commandsExecute (fun cmd => if cmd = [1] then (2 : Int) else 0)
      ([] ++ [1] :: [[3]]) = ((fun cmd => if cmd = [1] then (2 : Int) else 0) [1],
        [] ++ [[1]]) :=
  ⟨by decide, by decide,
    commands_execute_stops_at_first_failure _ [] [1] [[3]]
      (by decide) (by decide)⟩

/-!
### Target translation (`src/craftr/core/target.py`)
-/

/-- A `Target` of `src/craftr/core/target.py`, restricted to the state
`translate()` touches: the translated flags of `deps` and
`visible_deps`, its own `translated` flag, and the registered action
names. -/
structure CTarget where
  name : Nat
  depsTranslated : List Bool
  visibleDepsTranslated : List Bool
  translated : Bool
  actions : List Nat
deriving DecidableEq

/-- The failures `Target.translate()` can raise: the explicit
`RuntimeError` for a second call, the dependency assertion, or an
exception escaping the kind-specific `impl.translate()`. -/
inductive TranslateError : Type
  | alreadyTranslated
  | depNotTranslated
  | implRaised
deriving DecidableEq

/-- `Target.translate()`: raise if already translated; assert every
dependency and visible dependency is translated; set `translated :=
true`; only then invoke the kind-specific `impl.translate()`, given by
its outcome (the actions it registers, or the exception it raises).
Returns the updated target, the call's result, and whether
`impl.translate()` was invoked. -/
def targetTranslate (t : CTarget) (impl : Except Unit (List Nat)) :
    CTarget × Except TranslateError Unit × Bool :=
  if t.translated then (t, Except.error TranslateError.alreadyTranslated, false)
  else if ! (t.depsTranslated.all id && t.visibleDepsTranslated.all id) then
    (t, Except.error TranslateError.depNotTranslated, false)
  else
    match impl with
    | Except.ok acts =>
      ({ t with translated := true, actions := t.actions ++ acts },
        Except.ok (), true)
    | Except.error _ =>
      ({ t with translated := true }, Except.error TranslateError.implRaised,
        true)

/-- C10: `translated` is set before the kind-specific translation runs,
so when `impl.translate()` raises the target stays marked translated,
and any subsequent `translate()` call fails with the already-translated
error without invoking the implementation again or touching the
registered actions. -/
theorem target_translate_marks_before_impl (t : CTarget)
    (hnot : t.translated = false)
    (hdeps : t.depsTranslated.all id = true)
    (hvis : t.visibleDepsTranslated.all id = true) :
    (targetTranslate t (Except.error ())).1.translated = true ∧
    (targetTranslate t (Except.error ())).2.1
      = Except.error TranslateError.implRaised ∧
    (targetTranslate t (Except.error ())).2.2 = true ∧
    (targetTranslate t (Except.error ())).1.actions = t.actions ∧
    (∀ impl2, targetTranslate (targetTranslate t (Except.error ())).1 impl2
      = ((targetTranslate t (Except.error ())).1,
         Except.error TranslateError.alreadyTranslated, false)) := by
  have hred : targetTranslate t (Except.error ())
      = ({ t with translated := true },
         Except.error TranslateError.implRaised, true) := by
    unfold targetTranslate
    rw [hnot, hdeps, hvis]
    rfl
  rw [hred]
  refine ⟨rfl, rfl, rfl, rfl, ?_⟩
  intro impl2
  unfold targetTranslate
  rfl

/-- C10 witness: the theorem at a concrete untranslated target with one
translated dependency. -/
theorem target_translate_marks_before_impl_witness :
    (⟨1, [true], [], false, []⟩ : CTarget).translated = false ∧
    (⟨1, [true], [], false, []⟩ : CTarget).depsTranslated.all id = true ∧
    (⟨1, [true], [], false, []⟩ : CTarget).visibleDepsTranslated.all id = true ∧
    ((targetTranslate (⟨1, [true], [], false, []⟩ : CTarget)
        (Except.error ())).1.translated = true ∧
     (targetTranslate (⟨1, [true], [], false, []⟩ : CTarget)
        (Except.error ())).2.1 = Except.error TranslateError.implRaised ∧
     (targetTranslate (⟨1, [true], [], false, []⟩ : CTarget)
        (Except.error ())).2.2 = true ∧
     (targetTranslate (⟨1, [true], [], false, []⟩ : CTarget)
        (Except.error ())).1.actions
        = (⟨1, [true], [], false, []⟩ : CTarget).actions ∧
     (∀ impl2, targetTranslate
        (targetTranslate (⟨1, [true], [], false, []⟩ : CTarget)
          (Except.error ())).1 impl2
        = ((targetTranslate (⟨1, [true], [], false, []⟩ : CTarget)
            (Except.error ())).1,
           Except.error TranslateError.alreadyTranslated, false))) :=
  ⟨rfl, rfl, rfl,
    target_translate_marks_before_impl ⟨1, [true], [], false, []⟩ rfl rfl rfl⟩

/-!
### The execution engine (`src/backends/build/python.py`)

`PythonBackend.build` walks the topologically ordered action list,
spins on readiness, skips or launches each action, polls the in-flight
processes, and on the first non-zero exit code terminates and waits for
everything before propagating that code (`sys.exit(code)` caught and
re-raised by the `except BaseException` handler).

A process is the oracle pair (`duration` polling rounds until it
finishes, then `exitCode`); the global clock advances by one at each
`time.sleep(0.25)`. Every observable effect is instrumented in an event
trace.
-/

/-- One schedulable action: its build-graph data plus its process
behaviour when executed. -/
structure PAction where
  act : Action
  duration : Nat
  exitCode : Int
deriving DecidableEq

/-- The instrumented observable effects of the engine. -/
inductive BuildEvent : Type
  | launched (i : Nat)
  | skipped (i : Nat)
  | completedOk (i : Nat)
  | actionFailed (i : Nat) (code : Int)
  | terminated (i : Nat)
  | waited (i : Nat)
deriving DecidableEq

/-- The engine state: the clock, the in-flight `(action, start time)`
pairs (the `processes` list), the completed identifiers, the backend's
`_cache['actions']` map, and the event trace. -/
structure BuildState where
  time : Nat
  inflight : List (PAction × Nat)
  completed : List Nat
  cache : List (Nat × List Nat)
  events : List BuildEvent
deriving DecidableEq

/-- Lookup in the cache map (`get_cached_action_key`). -/
def assocGet (m : List (Nat × List Nat)) (k : Nat) : Option (List Nat) :=
  (m.find? (fun p => decide (p.1 = k))).map (fun p => p.2)

/-- Store into the cache map (`data['key'] = ...`), overwriting any
previous entry. -/
def assocSet (m : List (Nat × List Nat)) (k : Nat) (v : List Nat) :
    List (Nat × List Nat) :=
  match m with
  | [] => [(k, v)]
  | p :: rest => if p.1 = k then (k, v) :: rest else p :: assocSet rest k v

/-- The completion predicate fed to `compute_hash_key`. -/
def completedF (st : BuildState) : Nat → Bool :=
  fun i => decide (i ∈ st.completed)

/-- `can_run(action)`: every action-graph dependency completed. -/
def canRun (st : BuildState) (a : Action) : Bool :=
  a.deps.all (fun d => decide (d ∈ st.completed))

/-- `PythonBackend._action_completed`: mark the action completed and
record its freshly computed hash key in the cache map. -/
def actionCompleted (env : HashEnv) (a : Action) (st : BuildState) :
    Except HashError BuildState :=
  match computeHashKey env (completedF st) a with
  | Except.error e => Except.error e
  | Except.ok k => Except.ok
      { st with completed := st.completed ++ [a.identifier],
                cache := assocSet st.cache a.identifier k }

/-- `process.is_running()` for the in-flight pair `p` at the current
clock. -/
def procRunning (time : Nat) (p : PAction × Nat) : Bool :=
  decide (time < p.2 + p.1.duration)

/-- The instrumentation of the `skippable` short-circuit: record the
skip event (no process is spawned). -/
def markSkipped (a : PAction) (st : BuildState) : BuildState :=
  { st with events := st.events ++ [BuildEvent.skipped a.act.identifier] }

/-- `action.execute()` plus bookkeeping: append the new non-blocking
process to the in-flight list and record the launch. -/
def launchAction (a : PAction) (st : BuildState) : BuildState :=
  { st with inflight := st.inflight ++ [(a, st.time)],
            events := st.events ++ [BuildEvent.launched a.act.identifier] }

/-- The exception that aborts the engine loop: the `sys.exit(code)` of a
failing action, or a `RuntimeError` escaping `compute_hash_key`. -/
inductive Fatal : Type
  | exit (code : Int)
  | internalHash (e : HashError)
deriving DecidableEq

/-- `check_process`: return while the process is still running;
otherwise remove it from the in-flight list and either `sys.exit` with
its non-zero code or run `_action_completed`. -/
def checkProcess (env : HashEnv) (st : BuildState) (p : PAction × Nat) :
    Except (Fatal × BuildState) BuildState :=
  if procRunning st.time p then Except.ok st
  else
    let code := p.1.exitCode
    let st1 := { st with inflight := st.inflight.erase p }
    if code ≠ 0 then
      Except.error (Fatal.exit code,
        { st1 with events := st1.events
            ++ [BuildEvent.actionFailed p.1.act.identifier code] })
    else
      match actionCompleted env p.1.act st1 with
      | Except.error e => Except.error (Fatal.internalHash e, st1)
      | Except.ok st2 => Except.ok
          { st2 with events := st2.events
              ++ [BuildEvent.completedOk p.1.act.identifier] }

/-- The `for process in processes[:]` loop over a snapshot of the
in-flight list; an exception propagates immediately. -/
def checkProcesses (env : HashEnv) :
    List (PAction × Nat) → BuildState → Except (Fatal × BuildState) BuildState
  | [], st => Except.ok st
  | p :: rest, st =>
    match checkProcess env st p with
    | Except.error e => Except.error e
    | Except.ok st1 => checkProcesses env rest st1

/-- The `except BaseException` handler: request `terminate()` on every
in-flight process still running (`poll() is None`), then `wait()` on
every in-flight process. -/
def runHandler (st : BuildState) : BuildState :=
  { st with
    events := st.events
      ++ ((st.inflight.filter (procRunning st.time)).map (fun p =>
            BuildEvent.terminated p.1.act.identifier))
      ++ (st.inflight.map (fun p => BuildEvent.waited p.1.act.identifier)) }

/-- The outcome of `PythonBackend.build`: clean completion, the failing
action's exit code propagating, a hashing `RuntimeError` propagating, or
the modelling fuel running out (never reached with ample fuel). -/
inductive BuildResult : Type
  | success (st : BuildState)
  | failed (code : Int) (st : BuildState)
  | internalError (e : HashError) (st : BuildState)
  | outOfFuel (st : BuildState)
deriving DecidableEq

/-- The main loop of `PythonBackend.build`: for each action in
topological order, spin (polling and sleeping) until its dependencies
completed; then either short-circuit a skippable action through
`_action_completed` or launch it non-blocking; after the list is
exhausted, poll the remaining in-flight processes until none is left.
The fuel bounds only the number of sleeps. -/
def buildLoop (env : HashEnv) :
    Nat → List PAction → BuildState → BuildResult
  | fuel, a :: rest, st =>
    if canRun st a.act then
      match skippable env (completedF st) (assocGet st.cache) a.act with
      | Except.error e => BuildResult.internalError e (runHandler st)
      | Except.ok true =>
        match actionCompleted env a.act (markSkipped a st) with
        | Except.error e => BuildResult.internalError e (runHandler st)
        | Except.ok st1 => buildLoop env fuel rest st1
      | Except.ok false =>
        buildLoop env fuel rest (launchAction a st)
    else
      match checkProcesses env st.inflight st with
      | Except.error (Fatal.exit c, stf) => BuildResult.failed c (runHandler stf)
      | Except.error (Fatal.internalHash e, stf) =>
          BuildResult.internalError e (runHandler stf)
      | Except.ok st1 =>
        match fuel with
        | 0 => BuildResult.outOfFuel st1
        | fuel1 + 1 => buildLoop env fuel1 (a :: rest) { st1 with time := st1.time + 1 }
  | fuel, [], st =>
    match st.inflight with
    | [] => BuildResult.success st
    | _ :: _ =>
      match checkProcesses env st.inflight st with
      | Except.error (Fatal.exit c, stf) => BuildResult.failed c (runHandler stf)
      | Except.error (Fatal.internalHash e, stf) =>
          BuildResult.internalError e (runHandler stf)
      | Except.ok st1 =>
        match fuel with
        | 0 => BuildResult.outOfFuel st1
        | fuel1 + 1 => buildLoop env fuel1 [] { st1 with time := st1.time + 1 }
  termination_by fuel pending _ => (fuel, pending.length)
  decreasing_by
    all_goals simp_wf
    · omega
    · omega
    · omega
    · omega

/-- `PythonBackend.build`, started on the topologically ordered action
list with the cache loaded from `cache.json`. -/
def pythonBuild (env : HashEnv) (actions : List PAction)
    (cache0 : List (Nat × List Nat)) (fuel : Nat) : BuildResult :=
  buildLoop env fuel actions ⟨0, [], [], cache0, []⟩

/-- The identifiers of actions that were started (skipped or launched)
according to the trace. -/
def startedIdents (evs : List BuildEvent) : List Nat :=
  evs.filterMap (fun e => match e with
    | BuildEvent.launched i => some i
    | BuildEvent.skipped i => some i
    | _ => none)

/-- The identifiers of actions that reached a terminal success (either
polled with exit code 0 or skipped). -/
def doneIdents (evs : List BuildEvent) : List Nat :=
  evs.filterMap (fun e => match e with
    | BuildEvent.completedOk i => some i
    | BuildEvent.skipped i => some i
    | _ => none)

lemma startedIdents_append (l1 l2 : List BuildEvent) :
    startedIdents (l1 ++ l2) = startedIdents l1 ++ startedIdents l2 :=
  List.filterMap_append l1 l2 _

lemma doneIdents_append (l1 l2 : List BuildEvent) :
    doneIdents (l1 ++ l2) = doneIdents l1 ++ doneIdents l2 :=
  List.filterMap_append l1 l2 _

lemma mem_startedIdents {evs : List BuildEvent} {i : Nat} :
    i ∈ startedIdents evs ↔
      (BuildEvent.launched i ∈ evs ∨ BuildEvent.skipped i ∈ evs) := by
  unfold startedIdents
  rw [List.mem_filterMap]
  constructor
  · rintro ⟨e, he, hei⟩
    cases e <;> cases hei
    · exact Or.inl he
    · exact Or.inr he
  · rintro (h | h)
    · exact ⟨BuildEvent.launched i, h, rfl⟩
    · exact ⟨BuildEvent.skipped i, h, rfl⟩

lemma mem_doneIdents {evs : List BuildEvent} {i : Nat} :
    i ∈ doneIdents evs ↔
      (BuildEvent.completedOk i ∈ evs ∨ BuildEvent.skipped i ∈ evs) := by
  unfold doneIdents
  rw [List.mem_filterMap]
  constructor
  · rintro ⟨e, he, hei⟩
    cases e <;> cases hei
    · exact Or.inr he
    · exact Or.inl he
  · rintro (h | h)
    · exact ⟨BuildEvent.completedOk i, h, rfl⟩
    · exact ⟨BuildEvent.skipped i, h, rfl⟩

lemma assocGet_set_self (m : List (Nat × List Nat)) (k : Nat) (v : List Nat) :
    assocGet (assocSet m k v) k = some v := by
  induction m with
  | nil => simp [assocSet, assocGet]
  | cons p rest ih =>
    unfold assocSet
    by_cases hp : p.1 = k
    · rw [if_pos hp]
      simp [assocGet]
    · rw [if_neg hp]
      unfold assocGet at ih ⊢
      rw [List.find?_cons]
      have hd : decide (p.1 = k) = false := by simp [hp]
      simp only [hd]
      exact ih

lemma assocGet_set_ne (m : List (Nat × List Nat)) (k k' : Nat) (v : List Nat)
    (hne : ¬ k' = k) : assocGet (assocSet m k v) k' = assocGet m k' := by
  induction m with
  | nil =>
    simp only [assocSet, assocGet, List.find?_cons, List.find?_nil]
    have hd : decide ((k, v).1 = k') = false := by
      simp
      intro h
      exact absurd h.symm hne
    simp [hd]
  | cons p rest ih =>
    unfold assocSet
    by_cases hp : p.1 = k
    · rw [if_pos hp]
      unfold assocGet
      rw [List.find?_cons, List.find?_cons]
      have hd1 : decide ((k, v).1 = k') = false := by
        simp
        intro h
        exact absurd h.symm hne
      have hd2 : decide (p.1 = k') = false := by
        simp [hp]
        intro h
        exact absurd h.symm hne
      simp only [hd1, hd2]
    · rw [if_neg hp]
      unfold assocGet at ih ⊢
      rw [List.find?_cons, List.find?_cons]
      cases hd : decide (p.1 = k')
      · simp only []
        exact ih
      · simp only []

/-- The loop invariant of `PythonBackend.build`, over the fixed list
`world` of all actions handed to the engine, the not-yet-processed
suffix `pending`, and the current state. -/
structure LoopInv (env : HashEnv) (world pending : List PAction)
    (st : BuildState) : Prop where
  worldNodup : (world.map (fun a => a.act.identifier)).Nodup
  pendingSub : ∀ a ∈ pending, a ∈ world
  pendingNodup : (pending.map (fun a => a.act.identifier)).Nodup
  startedNodup : (startedIdents st.events).Nodup
  startedNotPending : ∀ i ∈ startedIdents st.events, ∀ a ∈ pending,
    ¬ a.act.identifier = i
  inflightWorld : ∀ p ∈ st.inflight, p.1 ∈ world
  inflightLaunched : ∀ p ∈ st.inflight,
    BuildEvent.launched p.1.act.identifier ∈ st.events
  inflightNotDone : ∀ p ∈ st.inflight,
    p.1.act.identifier ∉ doneIdents st.events
  inflightNodup : (st.inflight.map (fun p => p.1.act.identifier)).Nodup
  doneSubStarted : ∀ i ∈ doneIdents st.events, i ∈ startedIdents st.events
  completedEq : ∀ i, i ∈ st.completed ↔ i ∈ doneIdents st.events
  startedDeps : ∀ a ∈ world, a.act.identifier ∈ startedIdents st.events →
    ∀ d ∈ a.act.deps, d ∈ doneIdents st.events
  cacheDone : ∀ a ∈ world, a.act.identifier ∈ doneIdents st.events →
    assocGet st.cache a.act.identifier = some (keyOf env a.act)

lemma LoopInv_time {env : HashEnv} {world pending : List PAction}
    {st : BuildState} (h : LoopInv env world pending st) (t : Nat) :
    LoopInv env world pending { st with time := t } :=
  ⟨h.worldNodup, h.pendingSub, h.pendingNodup, h.startedNodup,
   h.startedNotPending, h.inflightWorld, h.inflightLaunched,
   h.inflightNotDone, h.inflightNodup, h.doneSubStarted, h.completedEq,
   h.startedDeps, h.cacheDone⟩

lemma actionCompleted_ok_fields {env : HashEnv} {a : Action}
    {st st' : BuildState} (h : actionCompleted env a st = Except.ok st') :
    st' = { st with completed := st.completed ++ [a.identifier],
                    cache := assocSet st.cache a.identifier (keyOf env a) } := by
  unfold actionCompleted at h
  cases hk : computeHashKey env (completedF st) a with
  | error e => rw [hk] at h; cases h
  | ok k =>
    rw [hk] at h
    cases h
    rw [computeHashKey_ok_keyOf hk]

/-- Entries of an in-flight list with duplicate-free identifiers are
pairwise determined by their identifier. -/
lemma inflight_ident_inj {l : List (PAction × Nat)}
    (h : (l.map (fun p => p.1.act.identifier)).Nodup) :
    ∀ p ∈ l, ∀ q ∈ l, p.1.act.identifier = q.1.act.identifier → p = q :=
  List.inj_on_of_nodup_map h

/-- Actions of a list with duplicate-free identifiers are pairwise
determined by their identifier. -/
lemma world_ident_inj {l : List PAction}
    (h : (l.map (fun a => a.act.identifier)).Nodup) :
    ∀ p ∈ l, ∀ q ∈ l, p.act.identifier = q.act.identifier → p = q :=
  List.inj_on_of_nodup_map h

/-- Invariant preservation and outcome description for one
`check_process` call on an in-flight entry. -/
lemma checkProcess_ok_cases {env : HashEnv} {st st' : BuildState}
    {p : PAction × Nat} (h : checkProcess env st p = Except.ok st') :
    (procRunning st.time p = true ∧ st' = st) ∨
    (procRunning st.time p = false ∧ p.1.exitCode = 0 ∧
     st' = { st with
       inflight := st.inflight.erase p,
       completed := st.completed ++ [p.1.act.identifier],
       cache := assocSet st.cache p.1.act.identifier (keyOf env p.1.act),
       events := st.events ++ [BuildEvent.completedOk p.1.act.identifier] }) := by
  unfold checkProcess at h
  by_cases hrun : procRunning st.time p = true
  · rw [if_pos hrun] at h
    cases h
    exact Or.inl ⟨hrun, rfl⟩
  · rw [if_neg hrun] at h
    right
    refine ⟨by revert hrun; cases procRunning st.time p <;> simp, ?_⟩
    by_cases hcode : p.1.exitCode ≠ 0
    · rw [if_pos hcode] at h
      cases h
    · rw [if_neg hcode] at h
      push_neg at hcode
      refine ⟨hcode, ?_⟩
      cases hac : actionCompleted env p.1.act
          { st with inflight := st.inflight.erase p } with
      | error e => rw [hac] at h; cases h
      | ok st2 =>
        rw [hac] at h
        cases h
        rw [actionCompleted_ok_fields hac]

lemma checkProcess_error_cases {env : HashEnv} {st stf : BuildState}
    {p : PAction × Nat} {fa : Fatal}
    (h : checkProcess env st p = Except.error (fa, stf)) :
    procRunning st.time p = false ∧
    ((∃ c, fa = Fatal.exit c ∧ c = p.1.exitCode ∧ ¬ c = 0 ∧
      stf = { st with
        inflight := st.inflight.erase p,
        events := st.events
          ++ [BuildEvent.actionFailed p.1.act.identifier c] }) ∨
     (∃ e, fa = Fatal.internalHash e ∧
      stf = { st with inflight := st.inflight.erase p })) := by
  unfold checkProcess at h
  by_cases hrun : procRunning st.time p = true
  · rw [if_pos hrun] at h
    cases h
  · rw [if_neg hrun] at h
    refine ⟨by revert hrun; cases procRunning st.time p <;> simp, ?_⟩
    by_cases hcode : p.1.exitCode ≠ 0
    · rw [if_pos hcode] at h
      injection h with h1
      injection h1 with h1 h2
      left
      exact ⟨p.1.exitCode, h1.symm, rfl, hcode, h2.symm⟩
    · rw [if_neg hcode] at h
      cases hac : actionCompleted env p.1.act
          { st with inflight := st.inflight.erase p } with
      | error e =>
        rw [hac] at h
        injection h with h1
        injection h1 with h1 h2
        right
        exact ⟨e, h1.symm, h2.symm⟩
      | ok st2 =>
        rw [hac] at h
        cases h

/-- Marking one polled-successful in-flight entry completed preserves
the loop invariant. -/
lemma LoopInv_finish {env : HashEnv} {world pending : List PAction}
    {st : BuildState} (hinv : LoopInv env world pending st)
    {p : PAction × Nat} (hp : p ∈ st.inflight) :
    LoopInv env world pending { st with
      inflight := st.inflight.erase p,
      completed := st.completed ++ [p.1.act.identifier],
      cache := assocSet st.cache p.1.act.identifier (keyOf env p.1.act),
      events := st.events ++ [BuildEvent.completedOk p.1.act.identifier] } := by
  have hsub : ∀ q, q ∈ st.inflight.erase p → q ∈ st.inflight :=
    fun q hq => (st.inflight.erase_sublist p).mem hq
  have hStarted : startedIdents (st.events
      ++ [BuildEvent.completedOk p.1.act.identifier]) = startedIdents st.events := by
    rw [startedIdents_append]
    simp [startedIdents]
  have hDone : doneIdents (st.events
      ++ [BuildEvent.completedOk p.1.act.identifier])
      = doneIdents st.events ++ [p.1.act.identifier] := by
    rw [doneIdents_append]
    simp [doneIdents]
  have hpStarted : p.1.act.identifier ∈ startedIdents st.events :=
    mem_startedIdents.mpr (Or.inl (hinv.inflightLaunched p hp))
  have hqne : ∀ q ∈ st.inflight.erase p,
      ¬ q.1.act.identifier = p.1.act.identifier := by
    intro q hq heq
    have hq' := hsub q hq
    have := inflight_ident_inj hinv.inflightNodup q hq' p hp heq
    subst this
    have hnd : st.inflight.Nodup := hinv.inflightNodup.of_map
    exact (hnd.not_mem_erase hq)
  refine ⟨hinv.worldNodup, hinv.pendingSub, hinv.pendingNodup, ?_, ?_, ?_,
    ?_, ?_, ?_, ?_, ?_, ?_, ?_⟩
  · rw [hStarted]
    exact hinv.startedNodup
  · rw [hStarted]
    exact hinv.startedNotPending
  · intro q hq
    exact hinv.inflightWorld q (hsub q hq)
  · intro q hq
    exact List.mem_append_left _ (hinv.inflightLaunched q (hsub q hq))
  · intro q hq
    rw [hDone]
    rw [List.mem_append]
    rintro (hmem | hmem)
    · exact hinv.inflightNotDone q (hsub q hq) hmem
    · rw [List.mem_singleton] at hmem
      exact hqne q hq hmem
  · exact hinv.inflightNodup.sublist ((st.inflight.erase_sublist p).map _)
  · rw [hStarted, hDone]
    intro i hi
    rw [List.mem_append] at hi
    rcases hi with hi | hi
    · exact hinv.doneSubStarted i hi
    · rw [List.mem_singleton] at hi
      subst hi
      exact hpStarted
  · intro i
    rw [hDone]
    simp only [List.mem_append, List.mem_singleton]
    rw [hinv.completedEq i]
  · rw [hStarted, hDone]
    intro a ha hai d hd
    exact List.mem_append_left _ (hinv.startedDeps a ha hai d hd)
  · rw [hDone]
    intro a ha hai
    rw [List.mem_append, List.mem_singleton] at hai
    by_cases heq : a.act.identifier = p.1.act.identifier
    · have hpw : p.1 ∈ world := hinv.inflightWorld p hp
      have haeq : a = p.1 :=
        world_ident_inj hinv.worldNodup a ha p.1 hpw heq
      rw [haeq]
      exact assocGet_set_self st.cache p.1.act.identifier (keyOf env p.1.act)
    · rcases hai with hai | hai
      · rw [assocGet_set_ne _ _ _ _ heq]
        exact hinv.cacheDone a ha hai
      · exact absurd hai heq

/-- Recording a failure event and dropping the failed entry preserves
the loop invariant. -/
lemma LoopInv_fail {env : HashEnv} {world pending : List PAction}
    {st : BuildState} (hinv : LoopInv env world pending st)
    (p : PAction × Nat) (c : Int) :
    LoopInv env world pending { st with
      inflight := st.inflight.erase p,
      events := st.events
        ++ [BuildEvent.actionFailed p.1.act.identifier c] } := by
  have hsub : ∀ q, q ∈ st.inflight.erase p → q ∈ st.inflight :=
    fun q hq => (st.inflight.erase_sublist p).mem hq
  have hStarted : startedIdents (st.events
      ++ [BuildEvent.actionFailed p.1.act.identifier c])
      = startedIdents st.events := by
    rw [startedIdents_append]
    simp [startedIdents]
  have hDone : doneIdents (st.events
      ++ [BuildEvent.actionFailed p.1.act.identifier c])
      = doneIdents st.events := by
    rw [doneIdents_append]
    simp [doneIdents]
  refine ⟨hinv.worldNodup, hinv.pendingSub, hinv.pendingNodup, ?_, ?_, ?_,
    ?_, ?_, ?_, ?_, ?_, ?_, ?_⟩
  · rw [hStarted]
    exact hinv.startedNodup
  · rw [hStarted]
    exact hinv.startedNotPending
  · intro q hq
    exact hinv.inflightWorld q (hsub q hq)
  · intro q hq
    exact List.mem_append_left _ (hinv.inflightLaunched q (hsub q hq))
  · intro q hq
    rw [hDone]
    exact hinv.inflightNotDone q (hsub q hq)
  · exact hinv.inflightNodup.sublist ((st.inflight.erase_sublist p).map _)
  · rw [hStarted, hDone]
    exact hinv.doneSubStarted
  · intro i
    rw [hDone]
    exact hinv.completedEq i
  · rw [hStarted, hDone]
    exact hinv.startedDeps
  · rw [hDone]
    exact hinv.cacheDone

/-- The `for process in processes[:]` pass over a snapshot: an ok result
preserves the invariant; a fatal non-zero exit carries the failing
action, its recorded event, and the invariant at the failure state. -/
lemma checkProcesses_spec {env : HashEnv} {world pending : List PAction} :
    ∀ (snapshot : List (PAction × Nat)) (st : BuildState),
    LoopInv env world pending st →
    (∀ q ∈ snapshot, q ∈ st.inflight) →
    snapshot.Nodup →
    (∀ st1, checkProcesses env snapshot st = Except.ok st1 →
      LoopInv env world pending st1) ∧
    (∀ c stf, checkProcesses env snapshot st
        = Except.error (Fatal.exit c, stf) →
      ∃ (b : PAction) (pre : List BuildEvent),
        b ∈ world ∧ b.exitCode = c ∧ ¬ c = 0 ∧
        stf.events = pre ++ [BuildEvent.actionFailed b.act.identifier c] ∧
        BuildEvent.launched b.act.identifier ∈ pre ∧
        b.act.identifier ∉ doneIdents stf.events ∧
        LoopInv env world pending stf) := by
  intro snapshot
  induction snapshot with
  | nil =>
    intro st hinv _ _
    constructor
    · intro st1 h
      cases h
      exact hinv
    · intro c stf h
      cases h
  | cons p rest ih =>
    intro st hinv hq hnd
    rw [List.nodup_cons] at hnd
    have hpin : p ∈ st.inflight := hq p (List.mem_cons_self p rest)
    constructor
    · intro st1 h
      unfold checkProcesses at h
      cases hcp : checkProcess env st p with
      | error e =>
        rw [hcp] at h
        cases h
      | ok stm =>
        rw [hcp] at h
        rcases checkProcess_ok_cases hcp with ⟨_, heq⟩ | ⟨_, _, heq⟩
        · rw [heq] at h
          exact (ih st hinv (fun q hq2 => hq q (List.mem_cons_of_mem p hq2))
            hnd.2).1 st1 h
        · rw [heq] at h
          have hinv2 := LoopInv_finish hinv hpin
          refine (ih _ hinv2 ?_ hnd.2).1 st1 h
          intro q hq2
          have hqin : q ∈ st.inflight := hq q (List.mem_cons_of_mem p hq2)
          have hqne : q ≠ p := fun he => hnd.1 (he ▸ hq2)
          show q ∈ st.inflight.erase p
          exact (List.mem_erase_of_ne hqne).mpr hqin
    · intro c stf h
      unfold checkProcesses at h
      cases hcp : checkProcess env st p with
      | error e =>
        rw [hcp] at h
        injection h with h1
        obtain ⟨hrun, hcases⟩ := checkProcess_error_cases (h1 ▸ hcp)
        rcases hcases with ⟨c0, hfa, hc0, hcne, hstf⟩ | ⟨e0, hfa, _⟩
        · have hfac : Fatal.exit c = Fatal.exit c0 := by rw [← hfa]
          injection hfac with hcc
          subst hcc
          subst hc0
          refine ⟨p.1, st.events, hinv.inflightWorld p hpin, rfl, hcne, ?_,
            hinv.inflightLaunched p hpin, ?_, ?_⟩
          · rw [hstf]
          · rw [hstf]
            show p.1.act.identifier ∉ doneIdents (st.events
              ++ [BuildEvent.actionFailed p.1.act.identifier p.1.exitCode])
            rw [doneIdents_append]
            have hd : doneIdents [BuildEvent.actionFailed p.1.act.identifier
                p.1.exitCode] = [] := by simp [doneIdents]
            rw [hd, List.append_nil]
            exact hinv.inflightNotDone p hpin
          · rw [hstf]
            exact LoopInv_fail hinv p p.1.exitCode
        · cases hfa
      | ok stm =>
        rw [hcp] at h
        rcases checkProcess_ok_cases hcp with ⟨_, heq⟩ | ⟨_, _, heq⟩
        · rw [heq] at h
          exact (ih st hinv (fun q hq2 => hq q (List.mem_cons_of_mem p hq2))
            hnd.2).2 c stf h
        · rw [heq] at h
          have hinv2 := LoopInv_finish hinv hpin
          refine (ih _ hinv2 ?_ hnd.2).2 c stf h
          intro q hq2
          have hqin : q ∈ st.inflight := hq q (List.mem_cons_of_mem p hq2)
          have hqne : q ≠ p := fun he => hnd.1 (he ▸ hq2)
          show q ∈ st.inflight.erase p
          exact (List.mem_erase_of_ne hqne).mpr hqin

/-- The head of the pending list has not been started yet. -/
lemma head_not_started {env : HashEnv} {world : List PAction} {a : PAction}
    {rest : List PAction} {st : BuildState}
    (hinv : LoopInv env world (a :: rest) st) :
    a.act.identifier ∉ startedIdents st.events := by
  intro hmem
  exact hinv.startedNotPending a.act.identifier hmem a
    (List.mem_cons_self a rest) rfl

/-- Skipping the ready head action (the `_action_completed`
short-circuit) preserves the loop invariant. -/
lemma LoopInv_skip {env : HashEnv} {world : List PAction} {a : PAction}
    {rest : List PAction} {st : BuildState}
    (hinv : LoopInv env world (a :: rest) st)
    (hrun : canRun st a.act = true) :
    LoopInv env world rest { st with
      completed := st.completed ++ [a.act.identifier],
      cache := assocSet st.cache a.act.identifier (keyOf env a.act),
      events := st.events ++ [BuildEvent.skipped a.act.identifier] } := by
  have hfresh := head_not_started hinv
  have haw : a ∈ world := hinv.pendingSub a (List.mem_cons_self a rest)
  have hStarted : startedIdents (st.events
      ++ [BuildEvent.skipped a.act.identifier])
      = startedIdents st.events ++ [a.act.identifier] := by
    rw [startedIdents_append]
    simp [startedIdents]
  have hDone : doneIdents (st.events
      ++ [BuildEvent.skipped a.act.identifier])
      = doneIdents st.events ++ [a.act.identifier] := by
    rw [doneIdents_append]
    simp [doneIdents]
  have hPendNd := hinv.pendingNodup
  rw [List.map_cons, List.nodup_cons] at hPendNd
  have hdeps : ∀ d ∈ a.act.deps, d ∈ doneIdents st.events := by
    intro d hd
    have := List.all_eq_true.mp hrun d hd
    rw [decide_eq_true_eq] at this
    exact (hinv.completedEq d).mp this
  refine ⟨hinv.worldNodup,
    fun b hb => hinv.pendingSub b (List.mem_cons_of_mem a hb), hPendNd.2,
    ?_, ?_, hinv.inflightWorld, ?_, ?_, hinv.inflightNodup, ?_, ?_, ?_, ?_⟩
  · rw [hStarted]
    apply List.Nodup.append hinv.startedNodup (List.nodup_singleton _)
    intro x hx hx1
    rw [List.mem_singleton] at hx1
    subst hx1
    exact hfresh hx
  · rw [hStarted]
    intro j hj b hb heq
    rw [List.mem_append, List.mem_singleton] at hj
    rcases hj with hj | hj
    · exact hinv.startedNotPending j hj b (List.mem_cons_of_mem a hb) heq
    · subst hj
      exact hPendNd.1 (heq ▸ List.mem_map_of_mem (fun x => x.act.identifier) hb)
  · intro q hq
    exact List.mem_append_left _ (hinv.inflightLaunched q hq)
  · intro q hq
    rw [hDone, List.mem_append, List.mem_singleton]
    rintro (hmem | hmem)
    · exact hinv.inflightNotDone q hq hmem
    · apply hfresh
      rw [← hmem]
      exact mem_startedIdents.mpr (Or.inl (hinv.inflightLaunched q hq))
  · rw [hStarted, hDone]
    intro i hi
    rw [List.mem_append] at hi ⊢
    rcases hi with hi | hi
    · exact Or.inl (hinv.doneSubStarted i hi)
    · exact Or.inr hi
  · intro i
    rw [hDone]
    simp only [List.mem_append, List.mem_singleton]
    rw [hinv.completedEq i]
  · rw [hStarted, hDone]
    intro b hb hbi d hd
    rw [List.mem_append, List.mem_singleton] at hbi
    rcases hbi with hbi | hbi
    · exact List.mem_append_left _ (hinv.startedDeps b hb hbi d hd)
    · have hba : b = a := world_ident_inj hinv.worldNodup b hb a haw hbi
      subst hba
      exact List.mem_append_left _ (hdeps d hd)
  · rw [hDone]
    intro b hb hbi
    by_cases heq : b.act.identifier = a.act.identifier
    · have hba : b = a := world_ident_inj hinv.worldNodup b hb a haw heq
      subst hba
      exact assocGet_set_self st.cache b.act.identifier (keyOf env b.act)
    · rw [List.mem_append, List.mem_singleton] at hbi
      rcases hbi with hbi | hbi
      · rw [assocGet_set_ne _ _ _ _ heq]
        exact hinv.cacheDone b hb hbi
      · exact absurd hbi heq

/-- Launching the ready head action preserves the loop invariant. -/
lemma LoopInv_launch {env : HashEnv} {world : List PAction} {a : PAction}
    {rest : List PAction} {st : BuildState}
    (hinv : LoopInv env world (a :: rest) st)
    (hrun : canRun st a.act = true) :
    LoopInv env world rest (launchAction a st) := by
  unfold launchAction
  have hfresh := head_not_started hinv
  have haw : a ∈ world := hinv.pendingSub a (List.mem_cons_self a rest)
  have hStarted : startedIdents (st.events
      ++ [BuildEvent.launched a.act.identifier])
      = startedIdents st.events ++ [a.act.identifier] := by
    rw [startedIdents_append]
    simp [startedIdents]
  have hDone : doneIdents (st.events
      ++ [BuildEvent.launched a.act.identifier]) = doneIdents st.events := by
    rw [doneIdents_append]
    simp [doneIdents]
  have hPendNd := hinv.pendingNodup
  rw [List.map_cons, List.nodup_cons] at hPendNd
  have hdeps : ∀ d ∈ a.act.deps, d ∈ doneIdents st.events := by
    intro d hd
    have := List.all_eq_true.mp hrun d hd
    rw [decide_eq_true_eq] at this
    exact (hinv.completedEq d).mp this
  refine ⟨hinv.worldNodup,
    fun b hb => hinv.pendingSub b (List.mem_cons_of_mem a hb), hPendNd.2,
    ?_, ?_, ?_, ?_, ?_, ?_, ?_, ?_, ?_, ?_⟩
  · rw [hStarted]
    apply List.Nodup.append hinv.startedNodup (List.nodup_singleton _)
    intro x hx hx1
    rw [List.mem_singleton] at hx1
    subst hx1
    exact hfresh hx
  · rw [hStarted]
    intro j hj b hb heq
    rw [List.mem_append, List.mem_singleton] at hj
    rcases hj with hj | hj
    · exact hinv.startedNotPending j hj b (List.mem_cons_of_mem a hb) heq
    · subst hj
      exact hPendNd.1 (heq ▸ List.mem_map_of_mem (fun x => x.act.identifier) hb)
  · intro q hq
    rw [List.mem_append, List.mem_singleton] at hq
    rcases hq with hq | hq
    · exact hinv.inflightWorld q hq
    · subst hq
      exact haw
  · intro q hq
    rw [List.mem_append, List.mem_singleton] at hq
    rcases hq with hq | hq
    · exact List.mem_append_left _ (hinv.inflightLaunched q hq)
    · subst hq
      exact List.mem_append_right _ (List.mem_singleton_self _)
  · intro q hq
    rw [hDone]
    rw [List.mem_append, List.mem_singleton] at hq
    rcases hq with hq | hq
    · exact hinv.inflightNotDone q hq
    · subst hq
      intro hmem
      exact hfresh (hinv.doneSubStarted _ hmem)
  · rw [List.map_append]
    apply List.Nodup.append hinv.inflightNodup (by simp)
    intro x hx hx1
    simp only [List.map_cons, List.map_nil, List.mem_singleton] at hx1
    subst hx1
    rw [List.mem_map] at hx
    obtain ⟨q, hq, hqi⟩ := hx
    apply hfresh
    rw [← hqi]
    exact mem_startedIdents.mpr (Or.inl (hinv.inflightLaunched q hq))
  · rw [hStarted, hDone]
    intro i hi
    exact List.mem_append_left _ (hinv.doneSubStarted i hi)
  · intro i
    rw [hDone]
    exact hinv.completedEq i
  · rw [hStarted, hDone]
    intro b hb hbi d hd
    rw [List.mem_append, List.mem_singleton] at hbi
    rcases hbi with hbi | hbi
    · exact hinv.startedDeps b hb hbi d hd
    · have hba : b = a := world_ident_inj hinv.worldNodup b hb a haw hbi
      subst hba
      exact hdeps d hd
  · rw [hDone]
    exact hinv.cacheDone

lemma buildLoop_cons_eq (env : HashEnv) (fuel : Nat) (a : PAction)
    (rest : List PAction) (st : BuildState) :
    buildLoop env fuel (a :: rest) st =
      (if canRun st a.act then
        match skippable env (completedF st) (assocGet st.cache) a.act with
        | Except.error e => BuildResult.internalError e (runHandler st)
        | Except.ok true =>
          match actionCompleted env a.act (markSkipped a st) with
          | Except.error e => BuildResult.internalError e (runHandler st)
          | Except.ok st1 => buildLoop env fuel rest st1
        | Except.ok false =>
          buildLoop env fuel rest (launchAction a st)
      else
        match checkProcesses env st.inflight st with
        | Except.error (Fatal.exit c, stf) =>
            BuildResult.failed c (runHandler stf)
        | Except.error (Fatal.internalHash e, stf) =>
            BuildResult.internalError e (runHandler stf)
        | Except.ok st1 =>
          match fuel with
          | 0 => BuildResult.outOfFuel st1
          | fuel1 + 1 =>
              buildLoop env fuel1 (a :: rest) { st1 with time := st1.time + 1 }) := by
  rw [buildLoop.eq_def]

lemma buildLoop_nil_eq (env : HashEnv) (fuel : Nat) (st : BuildState) :
    buildLoop env fuel [] st =
      (match st.inflight with
      | [] => BuildResult.success st
      | _ :: _ =>
        match checkProcesses env st.inflight st with
        | Except.error (Fatal.exit c, stf) =>
            BuildResult.failed c (runHandler stf)
        | Except.error (Fatal.internalHash e, stf) =>
            BuildResult.internalError e (runHandler stf)
        | Except.ok st1 =>
          match fuel with
          | 0 => BuildResult.outOfFuel st1
          | fuel1 + 1 => buildLoop env fuel1 [] { st1 with time := st1.time + 1 }) := by
  rw [buildLoop.eq_def]

/-- The master run lemma: from any invariant state, a `failed` result
carries the failing in-flight action's event record and invariant
state, and a `success` result satisfies the invariant with nothing
pending. -/
lemma buildLoop_spec {env : HashEnv} {world : List PAction} :
    ∀ (n fuel : Nat) (pending : List PAction) (st : BuildState),
    fuel + pending.length ≤ n →
    LoopInv env world pending st →
    (∀ c stF, buildLoop env fuel pending st = BuildResult.failed c stF →
      ∃ (b : PAction) (pre : List BuildEvent) (stf : BuildState),
        b ∈ world ∧ b.exitCode = c ∧ ¬ c = 0 ∧
        stf.events = pre ++ [BuildEvent.actionFailed b.act.identifier c] ∧
        BuildEvent.launched b.act.identifier ∈ pre ∧
        b.act.identifier ∉ doneIdents stf.events ∧
        stF = runHandler stf ∧
        (∃ pending2, LoopInv env world pending2 stf)) ∧
    (∀ stF, buildLoop env fuel pending st = BuildResult.success stF →
      LoopInv env world [] stF) := by
  intro n
  induction n with
  | zero =>
    intro fuel pending st hle hinv
    have hf : fuel = 0 := by omega
    have hp : pending = [] := by
      cases pending with
      | nil => rfl
      | cons a rest => simp at hle
    subst hf
    subst hp
    cases hin : st.inflight with
    | nil =>
      have hred : buildLoop env 0 [] st = BuildResult.success st := by
        rw [buildLoop_nil_eq, hin]
      constructor
      · intro c stF h
        rw [hred] at h
        cases h
      · intro stF h
        rw [hred] at h
        cases h
        exact hinv
    | cons q qs =>
      have hsnap : ∀ q2 ∈ st.inflight, q2 ∈ st.inflight := fun q2 h => h
      have hnd : st.inflight.Nodup := hinv.inflightNodup.of_map
      have hspec := checkProcesses_spec st.inflight st hinv hsnap hnd
      cases hcp : checkProcesses env st.inflight st with
      | error e =>
        obtain ⟨fa, stf⟩ := e
        cases fa with
        | exit c0 =>
          have hred : buildLoop env 0 [] st
              = BuildResult.failed c0 (runHandler stf) := by
            rw [buildLoop_nil_eq, hcp, hin]
          constructor
          · intro c stF h
            rw [hred] at h
            injection h with hc hstF
            subst hc
            obtain ⟨b, pre, hbw, hbe, hcne, hev, hlaunch, hnotdone, hinvf⟩ :=
              hspec.2 c0 stf hcp
            exact ⟨b, pre, stf, hbw, hbe, hcne, hev, hlaunch, hnotdone,
              hstF.symm, [], hinvf⟩
          · intro stF h
            rw [hred] at h
            cases h
        | internalHash e0 =>
          have hred : buildLoop env 0 [] st
              = BuildResult.internalError e0 (runHandler stf) := by
            rw [buildLoop_nil_eq, hcp, hin]
          constructor
          · intro c stF h
            rw [hred] at h
            cases h
          · intro stF h
            rw [hred] at h
            cases h
      | ok st1 =>
        have hred : buildLoop env 0 [] st = BuildResult.outOfFuel st1 := by
          rw [buildLoop_nil_eq, hcp, hin]
        constructor
        · intro c stF h
          rw [hred] at h
          cases h
        · intro stF h
          rw [hred] at h
          cases h
  | succ n ih =>
    intro fuel pending st hle hinv
    cases pending with
    | nil =>
      cases hin : st.inflight with
      | nil =>
        have hred : buildLoop env fuel [] st = BuildResult.success st := by
          rw [buildLoop_nil_eq, hin]
        constructor
        · intro c stF h
          rw [hred] at h
          cases h
        · intro stF h
          rw [hred] at h
          cases h
          exact hinv
      | cons q qs =>
        have hsnap : ∀ q2 ∈ st.inflight, q2 ∈ st.inflight := fun q2 h => h
        have hnd : st.inflight.Nodup := hinv.inflightNodup.of_map
        have hspec := checkProcesses_spec st.inflight st hinv hsnap hnd
        cases hcp : checkProcesses env st.inflight st with
        | error e =>
          obtain ⟨fa, stf⟩ := e
          cases fa with
          | exit c0 =>
            have hred : buildLoop env fuel [] st
                = BuildResult.failed c0 (runHandler stf) := by
              rw [buildLoop_nil_eq, hcp, hin]
            constructor
            · intro c stF h
              rw [hred] at h
              injection h with hc hstF
              subst hc
              obtain ⟨b, pre, hbw, hbe, hcne, hev, hlaunch, hnotdone, hinvf⟩ :=
                hspec.2 c0 stf hcp
              exact ⟨b, pre, stf, hbw, hbe, hcne, hev, hlaunch, hnotdone,
                hstF.symm, [], hinvf⟩
            · intro stF h
              rw [hred] at h
              cases h
          | internalHash e0 =>
            have hred : buildLoop env fuel [] st
                = BuildResult.internalError e0 (runHandler stf) := by
              rw [buildLoop_nil_eq, hcp, hin]
            constructor
            · intro c stF h
              rw [hred] at h
              cases h
            · intro stF h
              rw [hred] at h
              cases h
        | ok st1 =>
          cases fuel with
          | zero =>
            have hred : buildLoop env 0 [] st = BuildResult.outOfFuel st1 := by
              rw [buildLoop_nil_eq, hcp, hin]
            constructor
            · intro c stF h
              rw [hred] at h
              cases h
            · intro stF h
              rw [hred] at h
              cases h
          | succ fuel1 =>
            have hred : buildLoop env (fuel1 + 1) [] st
                = buildLoop env fuel1 [] { st1 with time := st1.time + 1 } := by
              rw [buildLoop_nil_eq, hcp, hin]
            have hinv1 : LoopInv env world ([] : List PAction)
                { st1 with time := st1.time + 1 } :=
              LoopInv_time (hspec.1 st1 hcp) _
            have hle1 : fuel1 + ([] : List PAction).length ≤ n := by
              simp at hle ⊢
              omega
            have hnext := ih fuel1 [] { st1 with time := st1.time + 1 } hle1 hinv1
            constructor
            · intro c stF h
              rw [hred] at h
              exact hnext.1 c stF h
            · intro stF h
              rw [hred] at h
              exact hnext.2 stF h
    | cons a rest =>
      by_cases hrun : canRun st a.act = true
      · cases hskip : skippable env (completedF st) (assocGet st.cache) a.act with
        | error e =>
          have hred : buildLoop env fuel (a :: rest) st
              = BuildResult.internalError e (runHandler st) := by
            rw [buildLoop_cons_eq, if_pos hrun, hskip]
          constructor
          · intro c stF h
            rw [hred] at h
            cases h
          · intro stF h
            rw [hred] at h
            cases h
        | ok b =>
          cases b with
          | true =>
            cases hac : actionCompleted env a.act (markSkipped a st) with
            | error e =>
              have hred : buildLoop env fuel (a :: rest) st
                  = BuildResult.internalError e (runHandler st) := by
                rw [buildLoop_cons_eq, if_pos hrun, hskip, hac]
              constructor
              · intro c stF h
                rw [hred] at h
                cases h
              · intro stF h
                rw [hred] at h
                cases h
            | ok st1 =>
              have hred : buildLoop env fuel (a :: rest) st
                  = buildLoop env fuel rest st1 := by
                rw [buildLoop_cons_eq, if_pos hrun, hskip, hac]
              have hst1 := actionCompleted_ok_fields hac
              have hinv1 : LoopInv env world rest st1 := by
                rw [hst1]
                exact LoopInv_skip hinv hrun
              have hle1 : fuel + rest.length ≤ n := by
                simp at hle
                omega
              have hnext := ih fuel rest st1 hle1 hinv1
              constructor
              · intro c stF h
                rw [hred] at h
                exact hnext.1 c stF h
              · intro stF h
                rw [hred] at h
                exact hnext.2 stF h
          | false =>
            have hred : buildLoop env fuel (a :: rest) st
                = buildLoop env fuel rest (launchAction a st) := by
              rw [buildLoop_cons_eq, if_pos hrun, hskip]
            have hinv1 : LoopInv env world rest (launchAction a st) :=
              LoopInv_launch hinv hrun
            have hle1 : fuel + rest.length ≤ n := by
              simp at hle
              omega
            have hnext := ih fuel rest _ hle1 hinv1
            constructor
            · intro c stF h
              rw [hred] at h
              exact hnext.1 c stF h
            · intro stF h
              rw [hred] at h
              exact hnext.2 stF h
      · have hsnap : ∀ q2 ∈ st.inflight, q2 ∈ st.inflight := fun q2 h => h
        have hnd : st.inflight.Nodup := hinv.inflightNodup.of_map
        have hspec := checkProcesses_spec st.inflight st hinv hsnap hnd
        cases hcp : checkProcesses env st.inflight st with
        | error e =>
          obtain ⟨fa, stf⟩ := e
          cases fa with
          | exit c0 =>
            have hred : buildLoop env fuel (a :: rest) st
                = BuildResult.failed c0 (runHandler stf) := by
              rw [buildLoop_cons_eq, if_neg hrun, hcp]
            constructor
            · intro c stF h
              rw [hred] at h
              injection h with hc hstF
              subst hc
              obtain ⟨b, pre, hbw, hbe, hcne, hev, hlaunch, hnotdone, hinvf⟩ :=
                hspec.2 c0 stf hcp
              exact ⟨b, pre, stf, hbw, hbe, hcne, hev, hlaunch, hnotdone,
                hstF.symm, a :: rest, hinvf⟩
            · intro stF h
              rw [hred] at h
              cases h
          | internalHash e0 =>
            have hred : buildLoop env fuel (a :: rest) st
                = BuildResult.internalError e0 (runHandler stf) := by
              rw [buildLoop_cons_eq, if_neg hrun, hcp]
            constructor
            · intro c stF h
              rw [hred] at h
              cases h
            · intro stF h
              rw [hred] at h
              cases h
        | ok st1 =>
          cases fuel with
          | zero =>
            have hred : buildLoop env 0 (a :: rest) st
                = BuildResult.outOfFuel st1 := by
              rw [buildLoop_cons_eq, if_neg hrun, hcp]
            constructor
            · intro c stF h
              rw [hred] at h
              cases h
            · intro stF h
              rw [hred] at h
              cases h
          | succ fuel1 =>
            have hred : buildLoop env (fuel1 + 1) (a :: rest) st
                = buildLoop env fuel1 (a :: rest)
                    { st1 with time := st1.time + 1 } := by
              rw [buildLoop_cons_eq, if_neg hrun, hcp]
            have hinv1 : LoopInv env world (a :: rest)
                { st1 with time := st1.time + 1 } :=
              LoopInv_time (hspec.1 st1 hcp) _
            have hle1 : fuel1 + (a :: rest).length ≤ n := by
              simp at hle ⊢
              omega
            have hnext := ih fuel1 (a :: rest)
              { st1 with time := st1.time + 1 } hle1 hinv1
            constructor
            · intro c stF h
              rw [hred] at h
              exact hnext.1 c stF h
            · intro stF h
              rw [hred] at h
              exact hnext.2 stF h

/-- The handler's terminate/wait tail contributes no start or done
identifiers. -/
lemma startedIdents_terminated_map (l : List (PAction × Nat)) :
    startedIdents (l.map (fun p => BuildEvent.terminated p.1.act.identifier))
      = [] := by
  unfold startedIdents
  rw [List.filterMap_map]
  exact List.filterMap_eq_nil_iff.mpr (fun a _ => rfl)

lemma startedIdents_waited_map (l : List (PAction × Nat)) :
    startedIdents (l.map (fun p => BuildEvent.waited p.1.act.identifier))
      = [] := by
  unfold startedIdents
  rw [List.filterMap_map]
  exact List.filterMap_eq_nil_iff.mpr (fun a _ => rfl)

lemma doneIdents_terminated_map (l : List (PAction × Nat)) :
    doneIdents (l.map (fun p => BuildEvent.terminated p.1.act.identifier))
      = [] := by
  unfold doneIdents
  rw [List.filterMap_map]
  exact List.filterMap_eq_nil_iff.mpr (fun a _ => rfl)

lemma doneIdents_waited_map (l : List (PAction × Nat)) :
    doneIdents (l.map (fun p => BuildEvent.waited p.1.act.identifier))
      = [] := by
  unfold doneIdents
  rw [List.filterMap_map]
  exact List.filterMap_eq_nil_iff.mpr (fun a _ => rfl)

/-- The event trace of a handler-final state: the failure state's trace
followed by terminations of the still-running processes and waits on all
in-flight processes. -/
lemma runHandler_events (st : BuildState) :
    (runHandler st).events = st.events
      ++ ((st.inflight.filter (procRunning st.time)).map (fun p =>
            BuildEvent.terminated p.1.act.identifier))
      ++ (st.inflight.map (fun p => BuildEvent.waited p.1.act.identifier)) := rfl

lemma doneIdents_runHandler (st : BuildState) :
    doneIdents (runHandler st).events = doneIdents st.events := by
  rw [runHandler_events, doneIdents_append, doneIdents_append,
    doneIdents_terminated_map, doneIdents_waited_map]
  simp

lemma startedIdents_runHandler (st : BuildState) :
    startedIdents (runHandler st).events = startedIdents st.events := by
  rw [runHandler_events, startedIdents_append, startedIdents_append,
    startedIdents_terminated_map, startedIdents_waited_map]
  simp

/-- A launch and a skip of the same identifier cannot both occur in a
trace whose start records are duplicate-free. -/
lemma not_launched_and_skipped {evs : List BuildEvent} {i : Nat}
    (hnd : (startedIdents evs).Nodup) (hl : BuildEvent.launched i ∈ evs)
    (hs : BuildEvent.skipped i ∈ evs) : False := by
  induction evs with
  | nil => cases hl
  | cons e rest ih =>
    cases e with
    | launched j =>
      have hstart : startedIdents (BuildEvent.launched j :: rest)
          = j :: startedIdents rest := rfl
      rw [hstart, List.nodup_cons] at hnd
      rcases List.mem_cons.mp hl with hl1 | hl1
      · have hij : i = j := by injection hl1
        subst hij
        have hs2 : BuildEvent.skipped i ∈ rest := by
          rcases List.mem_cons.mp hs with hs1 | hs1
          · cases hs1
          · exact hs1
        exact hnd.1 (mem_startedIdents.mpr (Or.inr hs2))
      · have hs2 : BuildEvent.skipped i ∈ rest := by
          rcases List.mem_cons.mp hs with hs1 | hs1
          · cases hs1
          · exact hs1
        exact ih hnd.2 hl1 hs2
    | skipped j =>
      have hstart : startedIdents (BuildEvent.skipped j :: rest)
          = j :: startedIdents rest := rfl
      rw [hstart, List.nodup_cons] at hnd
      rcases List.mem_cons.mp hs with hs1 | hs1
      · have hij : i = j := by injection hs1
        subst hij
        have hl2 : BuildEvent.launched i ∈ rest := by
          rcases List.mem_cons.mp hl with hl1 | hl1
          · cases hl1
          · exact hl1
        exact hnd.1 (mem_startedIdents.mpr (Or.inl hl2))
      · have hl2 : BuildEvent.launched i ∈ rest := by
          rcases List.mem_cons.mp hl with hl1 | hl1
          · cases hl1
          · exact hl1
        exact ih hnd.2 hl2 hs1
    | completedOk j =>
      have hstart : startedIdents (BuildEvent.completedOk j :: rest)
          = startedIdents rest := rfl
      rw [hstart] at hnd
      have hl2 : BuildEvent.launched i ∈ rest := by
        rcases List.mem_cons.mp hl with hl1 | hl1
        · cases hl1
        · exact hl1
      have hs2 : BuildEvent.skipped i ∈ rest := by
        rcases List.mem_cons.mp hs with hs1 | hs1
        · cases hs1
        · exact hs1
      exact ih hnd hl2 hs2
    | actionFailed j c =>
      have hstart : startedIdents (BuildEvent.actionFailed j c :: rest)
          = startedIdents rest := rfl
      rw [hstart] at hnd
      have hl2 : BuildEvent.launched i ∈ rest := by
        rcases List.mem_cons.mp hl with hl1 | hl1
        · cases hl1
        · exact hl1
      have hs2 : BuildEvent.skipped i ∈ rest := by
        rcases List.mem_cons.mp hs with hs1 | hs1
        · cases hs1
        · exact hs1
      exact ih hnd hl2 hs2
    | terminated j =>
      have hstart : startedIdents (BuildEvent.terminated j :: rest)
          = startedIdents rest := rfl
      rw [hstart] at hnd
      have hl2 : BuildEvent.launched i ∈ rest := by
        rcases List.mem_cons.mp hl with hl1 | hl1
        · cases hl1
        · exact hl1
      have hs2 : BuildEvent.skipped i ∈ rest := by
        rcases List.mem_cons.mp hs with hs1 | hs1
        · cases hs1
        · exact hs1
      exact ih hnd hl2 hs2
    | waited j =>
      have hstart : startedIdents (BuildEvent.waited j :: rest)
          = startedIdents rest := rfl
      rw [hstart] at hnd
      have hl2 : BuildEvent.launched i ∈ rest := by
        rcases List.mem_cons.mp hl with hl1 | hl1
        · cases hl1
        · exact hl1
      have hs2 : BuildEvent.skipped i ∈ rest := by
        rcases List.mem_cons.mp hs with hs1 | hs1
        · cases hs1
        · exact hs1
      exact ih hnd hl2 hs2

/-- The invariant of the engine's initial state, for any action list
with duplicate-free identifiers and any loaded cache. -/
lemma LoopInv_initial (env : HashEnv) (pending : List PAction)
    (cache0 : List (Nat × List Nat))
    (hnodup : (pending.map (fun a => a.act.identifier)).Nodup) :
    LoopInv env pending pending ⟨0, [], [], cache0, []⟩ := by
  refine ⟨hnodup, fun a ha => ha, hnodup, List.nodup_nil, ?_, ?_, ?_, ?_,
    List.nodup_nil, ?_, ?_, ?_, ?_⟩
  · intro i hi
    cases hi
  · intro p hp
    cases hp
  · intro p hp
    cases hp
  · intro p hp
    cases hp
  · intro i hi
    cases hi
  · intro i
    constructor
    · intro hi
      cases hi
    · intro hi
      cases hi
  · intro a _ hai
    cases hai
  · intro a _ hai
    cases hai

/-- C4: when an in-flight process reports a non-zero exit code, the
engine launches no further action (after the failure event the trace
holds only terminations and waits), requests `terminate()` on exactly
the still-running in-flight processes, calls `wait()` on every in-flight
process, and propagates exactly the failing action's exit code; every
launch that did happen had all its dependencies completed or skipped
beforehand, so no dependent of a failed action is ever launched. -/
theorem build_failure_stops_and_cancels (env : HashEnv) (fuel : Nat)
    (actions : List PAction) (cache0 : List (Nat × List Nat))
    (hnodup : (actions.map (fun a => a.act.identifier)).Nodup)
    (c : Int) (stF : BuildState)
    (hrun : pythonBuild env actions cache0 fuel = BuildResult.failed c stF) :
    ∃ (b : PAction) (pre : List BuildEvent) (stf : BuildState),
      b ∈ actions ∧ b.exitCode = c ∧ ¬ c = 0 ∧
      BuildEvent.launched b.act.identifier ∈ pre ∧
      stF.events = pre ++ [BuildEvent.actionFailed b.act.identifier c]
        ++ ((stf.inflight.filter (procRunning stf.time)).map (fun p =>
              BuildEvent.terminated p.1.act.identifier))
        ++ (stf.inflight.map (fun p => BuildEvent.waited p.1.act.identifier)) ∧
      BuildEvent.completedOk b.act.identifier ∉ stF.events ∧
      BuildEvent.skipped b.act.identifier ∉ stF.events ∧
      (∀ a2 ∈ actions, BuildEvent.launched a2.act.identifier ∈ stF.events →
        ∀ d ∈ a2.act.deps,
          BuildEvent.completedOk d ∈ stF.events ∨
          BuildEvent.skipped d ∈ stF.events) := by
  have hinv0 := LoopInv_initial env actions cache0 hnodup
  have hspec := @buildLoop_spec env actions
    (fuel + actions.length) fuel actions ⟨0, [], [], cache0, []⟩
    (le_refl _) hinv0
  obtain ⟨b, pre, stf, hbw, hbe, hcne, hev, hlaunch, hnotdone, hstF, pend2,
    hinvf⟩ := hspec.1 c stF hrun
  have hdoneF : doneIdents stF.events = doneIdents stf.events := by
    rw [hstF]
    exact doneIdents_runHandler stf
  have hstartF : startedIdents stF.events = startedIdents stf.events := by
    rw [hstF]
    exact startedIdents_runHandler stf
  refine ⟨b, pre, stf, hbw, hbe, hcne, hlaunch, ?_, ?_, ?_, ?_⟩
  · rw [hstF, runHandler_events, hev]
  · intro hmem
    apply hnotdone
    rw [← hdoneF]
    exact mem_doneIdents.mpr (Or.inl hmem)
  · intro hmem
    apply hnotdone
    rw [← hdoneF]
    exact mem_doneIdents.mpr (Or.inr hmem)
  · intro a2 ha2 hl d hd
    have hstarted : a2.act.identifier ∈ startedIdents stf.events := by
      rw [← hstartF]
      exact mem_startedIdents.mpr (Or.inl hl)
    have hdone := hinvf.startedDeps a2 ha2 hstarted d hd
    have : d ∈ doneIdents stF.events := by
      rw [hdoneF]
      exact hdone
    exact mem_doneIdents.mp this

/-- The concrete failing scenario: action `1` exits with code 1 after
one polling round; action `2` depends on it. -/
def envScenario : HashEnv := ⟨[], 0, fun _ _ => 0, fun _ => none, fun _ => true⟩

/-- The failing action of the scenario. -/
def actFailing : PAction := ⟨⟨1, true, [], [], [], 0, none⟩, 1, 1⟩

/-- The dependent action of the scenario; never launched. -/
def actDependent : PAction := ⟨⟨2, true, [], [], [1], 0, none⟩, 1, 0⟩

/-- Concrete evaluation of the failing scenario, by unfolding the loop
one step at a time. -/
lemma pythonBuild_fail_concrete :
    pythonBuild envScenario [actFailing, actDependent] [] 10
      = BuildResult.failed 1
          ⟨1, [], [], [],
            [BuildEvent.launched 1, BuildEvent.actionFailed 1 1]⟩ := by
  have h1 : buildLoop envScenario 10 [actFailing, actDependent]
        ⟨0, [], [], [], []⟩
      = buildLoop envScenario 10 [actDependent]
          ⟨0, [(actFailing, 0)], [], [], [BuildEvent.launched 1]⟩ := by
    rw [buildLoop_cons_eq]
    rfl
  have h2 : buildLoop envScenario 10 [actDependent]
        ⟨0, [(actFailing, 0)], [], [], [BuildEvent.launched 1]⟩
      = buildLoop envScenario 9 [actDependent]
          ⟨1, [(actFailing, 0)], [], [], [BuildEvent.launched 1]⟩ := by
    rw [buildLoop_cons_eq]
    rfl
  have h3 : buildLoop envScenario 9 [actDependent]
        ⟨1, [(actFailing, 0)], [], [], [BuildEvent.launched 1]⟩
      = BuildResult.failed 1
          ⟨1, [], [], [],
            [BuildEvent.launched 1, BuildEvent.actionFailed 1 1]⟩ := by
    rw [buildLoop_cons_eq]
    rfl
  show buildLoop envScenario 10 [actFailing, actDependent]
      ⟨0, [], [], [], []⟩ = _
  rw [h1, h2, h3]

/-- C4 witness: the theorem at the concrete scenario — target B depends
on target A, A's action fails with exit code 1, the engine propagates
code 1, and B is never launched. -/
theorem build_failure_stops_and_cancels_witness :
    ((([actFailing, actDependent] : List PAction).map
        (fun a => a.act.identifier)).Nodup) ∧
    pythonBuild envScenario [actFailing, actDependent] [] 10
      = BuildResult.failed 1
          ⟨1, [], [], [],
            [BuildEvent.launched 1, BuildEvent.actionFailed 1 1]⟩ ∧
    (∃ (b : PAction) (pre : List BuildEvent) (stf : BuildState),
      b ∈ [actFailing, actDependent] ∧ b.exitCode = 1 ∧ ¬ (1 : Int) = 0 ∧
      BuildEvent.launched b.act.identifier ∈ pre ∧
      (⟨1, [], [], [],
        [BuildEvent.launched 1, BuildEvent.actionFailed 1 1]⟩ :
          BuildState).events
        = pre ++ [BuildEvent.actionFailed b.act.identifier 1]
        ++ ((stf.inflight.filter (procRunning stf.time)).map (fun p =>
              BuildEvent.terminated p.1.act.identifier))
        ++ (stf.inflight.map (fun p => BuildEvent.waited p.1.act.identifier)) ∧
      BuildEvent.completedOk b.act.identifier ∉
        (⟨1, [], [], [],
          [BuildEvent.launched 1, BuildEvent.actionFailed 1 1]⟩ :
            BuildState).events ∧
      BuildEvent.skipped b.act.identifier ∉
        (⟨1, [], [], [],
          [BuildEvent.launched 1, BuildEvent.actionFailed 1 1]⟩ :
            BuildState).events ∧
      (∀ a2 ∈ [actFailing, actDependent],
        BuildEvent.launched a2.act.identifier ∈
          (⟨1, [], [], [],
            [BuildEvent.launched 1, BuildEvent.actionFailed 1 1]⟩ :
              BuildState).events →
        ∀ d ∈ a2.act.deps,
          BuildEvent.completedOk d ∈
            (⟨1, [], [], [],
              [BuildEvent.launched 1, BuildEvent.actionFailed 1 1]⟩ :
                BuildState).events ∨
          BuildEvent.skipped d ∈
            (⟨1, [], [], [],
              [BuildEvent.launched 1, BuildEvent.actionFailed 1 1]⟩ :
                BuildState).events)) :=
  ⟨by decide, pythonBuild_fail_concrete,
    build_failure_stops_and_cancels envScenario 10 [actFailing, actDependent]
      [] (by decide) 1 _ pythonBuild_fail_concrete⟩

/-- C9: on a successful build, every skipped action spawned no process
(it is never launched), yet is marked completed and has its freshly
computed hash key recorded in the cache map — exactly like an executed
action that exited with code 0. -/
theorem skipped_action_updates_cache_like_success (env : HashEnv)
    (fuel : Nat) (actions : List PAction) (cache0 : List (Nat × List Nat))
    (hnodup : (actions.map (fun a => a.act.identifier)).Nodup)
    (stF : BuildState)
    (hrun : pythonBuild env actions cache0 fuel = BuildResult.success stF) :
    ∀ a ∈ actions,
      (BuildEvent.skipped a.act.identifier ∈ stF.events →
        BuildEvent.launched a.act.identifier ∉ stF.events ∧
        a.act.identifier ∈ stF.completed ∧
        assocGet stF.cache a.act.identifier = some (keyOf env a.act)) ∧
      (BuildEvent.completedOk a.act.identifier ∈ stF.events →
        a.act.identifier ∈ stF.completed ∧
        assocGet stF.cache a.act.identifier = some (keyOf env a.act)) := by
  have hinv0 := LoopInv_initial env actions cache0 hnodup
  have hspec := @buildLoop_spec env actions
    (fuel + actions.length) fuel actions ⟨0, [], [], cache0, []⟩
    (le_refl _) hinv0
  have hinvF := hspec.2 stF hrun
  intro a ha
  constructor
  · intro hskip
    have hdone : a.act.identifier ∈ doneIdents stF.events :=
      mem_doneIdents.mpr (Or.inr hskip)
    refine ⟨?_, (hinvF.completedEq _).mpr hdone, hinvF.cacheDone a ha hdone⟩
    intro hlaunch
    exact not_launched_and_skipped hinvF.startedNodup hlaunch hskip
  · intro hok
    have hdone : a.act.identifier ∈ doneIdents stF.events :=
      mem_doneIdents.mpr (Or.inl hok)
    exact ⟨(hinvF.completedEq _).mpr hdone, hinvF.cacheDone a ha hdone⟩

/-- The concrete skip scenario: a memoized pure action whose cached key
matches and which declares no outputs. -/
def actSkippable : PAction := ⟨⟨5, true, [], [], [], 0, some [7]⟩, 1, 0⟩

/-- Concrete evaluation of the skip scenario. -/
lemma pythonBuild_skip_concrete :
    pythonBuild envScenario [actSkippable] [(5, [7])] 10
      = BuildResult.success
          ⟨0, [], [5], [(5, [7])], [BuildEvent.skipped 5]⟩ := by
  have h1 : buildLoop envScenario 10 [actSkippable]
        ⟨0, [], [], [(5, [7])], []⟩
      = buildLoop envScenario 10 []
          ⟨0, [], [5], [(5, [7])], [BuildEvent.skipped 5]⟩ := by
    rw [buildLoop_cons_eq]
    rfl
  have h2 : buildLoop envScenario 10 []
        ⟨0, [], [5], [(5, [7])], [BuildEvent.skipped 5]⟩
      = BuildResult.success
          ⟨0, [], [5], [(5, [7])], [BuildEvent.skipped 5]⟩ := by
    rw [buildLoop_nil_eq]
  show buildLoop envScenario 10 [actSkippable]
      ⟨0, [], [], [(5, [7])], []⟩ = _
  rw [h1, h2]

/-- C9 witness: the theorem at the concrete skip scenario — the action
is skipped, never launched, marked completed, and its key is recorded in
the cache. -/
theorem skipped_action_updates_cache_like_success_witness :
    ((([actSkippable] : List PAction).map
        (fun a => a.act.identifier)).Nodup) ∧
    pythonBuild envScenario [actSkippable] [(5, [7])] 10
      = BuildResult.success ⟨0, [], [5], [(5, [7])], [BuildEvent.skipped 5]⟩ ∧
    (∀ a ∈ [actSkippable],
      (BuildEvent.skipped a.act.identifier ∈
          (⟨0, [], [5], [(5, [7])], [BuildEvent.skipped 5]⟩ :
            BuildState).events →
        BuildEvent.launched a.act.identifier ∉
          (⟨0, [], [5], [(5, [7])], [BuildEvent.skipped 5]⟩ :
            BuildState).events ∧
        a.act.identifier ∈
          (⟨0, [], [5], [(5, [7])], [BuildEvent.skipped 5]⟩ :
            BuildState).completed ∧
        assocGet (⟨0, [], [5], [(5, [7])], [BuildEvent.skipped 5]⟩ :
            BuildState).cache a.act.identifier
          = some (keyOf envScenario a.act)) ∧
      (BuildEvent.completedOk a.act.identifier ∈
          (⟨0, [], [5], [(5, [7])], [BuildEvent.skipped 5]⟩ :
            BuildState).events →
        a.act.identifier ∈
          (⟨0, [], [5], [(5, [7])], [BuildEvent.skipped 5]⟩ :
            BuildState).completed ∧
        assocGet (⟨0, [], [5], [(5, [7])], [BuildEvent.skipped 5]⟩ :
            BuildState).cache a.act.identifier
          = some (keyOf envScenario a.act))) :=
  ⟨by decide, pythonBuild_skip_concrete,
    skipped_action_updates_cache_like_success envScenario 10 [actSkippable]
      [(5, [7])] (by decide) _ pythonBuild_skip_concrete⟩

end Craftr
